import Mathlib

/-!
Verification of the in-memory inverted-index core of the repository
(`src/core/postings.rs`): the `PostingsWriter` accumulator and the
leapfrog-style `IntersectionPostings` engine over the `Postings`
capability, instantiated at the in-memory `VecPostings` implementation
found in the same file.

Modelling conventions:
* `DocId` and `Term` are opaque totally ordered types in the source; we
  model both by `Nat`.
* Rust mutation becomes explicit state passing: a method on `&mut self`
  becomes a Lean function returning the updated value together with its
  result.
* Loops whose termination measure is the number of not-yet-consumed
  elements are written as structural recursion on a fuel argument; the
  public entry points always supply fuel strictly larger than the
  measure, so the zero-fuel branch is unreachable and every function is
  executable by `decide` / `rfl`.
-/

namespace Tantivy

/-- The in-memory postings cursor of the source (`VecPostings`): a vector
of doc ids together with a cursor index. -/
structure VecPostings where
  doc_ids : List Nat
  cursor : Nat
deriving DecidableEq, Repr

/-- `VecPostings::new(vals)`: cursor starts at 0. -/
def VecPostings.new (vals : List Nat) : VecPostings :=
  { doc_ids := vals, cursor := 0 }

/-- The not-yet-consumed suffix of the cursor (derived notion used in
specifications: the elements `next` can still produce). -/
def VecPostings.rem (p : VecPostings) : List Nat :=
  p.doc_ids.drop p.cursor

/-- Number of not-yet-consumed elements. -/
def VecPostings.remCount (p : VecPostings) : Nat :=
  p.rem.length

/-- `Iterator::next` for `VecPostings`: if `cursor >= doc_ids.len()`
return `None`, else advance the cursor and return `doc_ids[cursor - 1]`
(the element at the old cursor). -/
def VecPostings.next (p : VecPostings) : Option Nat × VecPostings :=
  if p.doc_ids.length ≤ p.cursor then (none, p)
  else (some (p.doc_ids.getD p.cursor 0), { p with cursor := p.cursor + 1 })

/-- The loop body of `VecPostings::skip_next`, structurally recursive on
fuel: repeatedly call `next`; return the first value `≥ target`
(consuming it), or `None` on exhaustion. -/
def VecPostings.skipF : Nat → VecPostings → Nat → Option Nat × VecPostings
  | 0, p, _ => (none, p)
  | fuel + 1, p, target =>
    match p.next with
    | (none, p1) => (none, p1)
    | (some val, p1) =>
      if target ≤ val then (some val, p1) else VecPostings.skipF fuel p1 target

/-- `VecPostings::skip_next(target)`: the loop above, with fuel strictly
larger than the number of remaining elements (so it never runs out). -/
def VecPostings.skip_next (p : VecPostings) (target : Nat) : Option Nat × VecPostings :=
  VecPostings.skipF (p.remCount + 1) p target

/-! ### Basic cursor lemmas -/

theorem VecPostings.rem_new (vals : List Nat) : (VecPostings.new vals).rem = vals := by
  simp [VecPostings.new, VecPostings.rem]

theorem VecPostings.next_of_rem_nil (p : VecPostings) (h : p.rem = []) :
    p.next = (none, p) := by
  have hle : p.doc_ids.length ≤ p.cursor := by
    have := List.drop_eq_nil_iff.mp h
    exact this
  simp [VecPostings.next, hle]

theorem VecPostings.next_of_rem_cons (p : VecPostings) (v : Nat) (r : List Nat)
    (h : p.rem = v :: r) :
    p.next = (some v, { p with cursor := p.cursor + 1 }) ∧
      ({ p with cursor := p.cursor + 1 } : VecPostings).rem = r := by
  have hlt : p.cursor < p.doc_ids.length := by
    by_contra hc
    push_neg at hc
    have : p.rem = [] := List.drop_eq_nil_iff.mpr hc
    rw [this] at h
    exact List.noConfusion h
  have hget : p.doc_ids.getD p.cursor 0 = v := by
    have h0 : p.doc_ids[p.cursor]? = some v := by
      have := List.getElem?_drop p.doc_ids p.cursor 0
      rw [Nat.add_zero] at this
      rw [VecPostings.rem] at h
      rw [h] at this
      simpa using this.symm
    simp [List.getD_eq_getElem?_getD, h0]
  constructor
  · simp only [VecPostings.next, Nat.not_le.mpr hlt, if_false, hget]
  · show p.doc_ids.drop (p.cursor + 1) = r
    have : (p.doc_ids.drop p.cursor).tail = p.doc_ids.drop (p.cursor + 1) := by
      rw [List.tail_drop]
    rw [← this]
    rw [VecPostings.rem] at h
    rw [h]
    rfl

/-- Full behavioural characterisation of the `skip_next` loop: it
consumes the longest prefix of remaining elements `< target`, then
consumes and returns the first element `≥ target` if one exists,
otherwise exhausts the cursor. -/
theorem VecPostings.skipF_spec (fuel : Nat) :
    ∀ (p : VecPostings) (t : Nat), p.remCount < fuel →
      ((p.rem.dropWhile (fun x => x < t) = [] →
          (VecPostings.skipF fuel p t).1 = none ∧
          (VecPostings.skipF fuel p t).2.rem = [] ∧
          (VecPostings.skipF fuel p t).2.doc_ids = p.doc_ids ∧
          p.cursor ≤ (VecPostings.skipF fuel p t).2.cursor) ∧
       (∀ v r, p.rem.dropWhile (fun x => x < t) = v :: r →
          (VecPostings.skipF fuel p t).1 = some v ∧
          (VecPostings.skipF fuel p t).2.rem = r ∧
          (VecPostings.skipF fuel p t).2.doc_ids = p.doc_ids ∧
          p.cursor ≤ (VecPostings.skipF fuel p t).2.cursor ∧
          t ≤ v)) := by
  induction fuel with
  | zero =>
    intro p t hf
    exact absurd hf (Nat.not_lt_zero _)
  | succ fuel ih =>
    intro p t hf
    cases hrem : p.rem with
    | nil =>
      have hnext := VecPostings.next_of_rem_nil p hrem
      constructor
      · intro _
        simp [VecPostings.skipF, hnext, hrem]
      · intro v r hdw
        simp at hdw
    | cons v0 r0 =>
      obtain ⟨hnext, hrem1⟩ := VecPostings.next_of_rem_cons p v0 r0 hrem
      by_cases hv : t ≤ v0
      · constructor
        · intro h0
          simp [List.dropWhile_cons, Nat.not_lt.mpr hv] at h0
        · intro v r hvr
          simp only [List.dropWhile_cons] at hvr
          rw [if_neg (by simp [Nat.not_lt.mpr hv])] at hvr
          obtain ⟨rfl, rfl⟩ : v0 = v ∧ r0 = r := by
            injection hvr with h1 h2
            exact ⟨h1, h2⟩
          refine ⟨?_, ?_, ?_, ?_, hv⟩ <;>
            simp [VecPostings.skipF, hnext, hv, hrem1]
      · push_neg at hv
        have hres : VecPostings.skipF (fuel + 1) p t =
            VecPostings.skipF fuel { p with cursor := p.cursor + 1 } t := by
          simp [VecPostings.skipF, hnext, Nat.not_le.mpr hv]
        have hcount : ({ p with cursor := p.cursor + 1 } : VecPostings).remCount < fuel := by
          have h1 : p.remCount = r0.length + 1 := by
            simp [VecPostings.remCount, hrem]
          have h2 : ({ p with cursor := p.cursor + 1 } : VecPostings).remCount = r0.length := by
            simp [VecPostings.remCount, hrem1]
          omega
        have IH := ih { p with cursor := p.cursor + 1 } t hcount
        rw [hrem1] at IH
        constructor
        · intro h0
          simp only [List.dropWhile_cons] at h0
          rw [if_pos (by simp [hv])] at h0
          have := IH.1 h0
          rw [hres]
          exact ⟨this.1, this.2.1, this.2.2.1, Nat.le_trans (Nat.le_succ _) this.2.2.2⟩
        · intro v r hvr
          simp only [List.dropWhile_cons] at hvr
          rw [if_pos (by simp [hv])] at hvr
          have := IH.2 v r hvr
          rw [hres]
          exact ⟨this.1, this.2.1, this.2.2.1,
            Nat.le_trans (Nat.le_succ _) this.2.2.2.1, this.2.2.2.2⟩

/-- `skip_next` when no remaining element reaches the target. -/
theorem VecPostings.skip_next_none (p : VecPostings) (t : Nat)
    (h : p.rem.dropWhile (fun x => x < t) = []) :
    (p.skip_next t).1 = none ∧ (p.skip_next t).2.rem = [] ∧
    (p.skip_next t).2.doc_ids = p.doc_ids ∧ p.cursor ≤ (p.skip_next t).2.cursor :=
  (VecPostings.skipF_spec (p.remCount + 1) p t (Nat.lt_succ_self _)).1 h

/-- `skip_next` when some remaining element reaches the target. -/
theorem VecPostings.skip_next_some (p : VecPostings) (t v : Nat) (r : List Nat)
    (h : p.rem.dropWhile (fun x => x < t) = v :: r) :
    (p.skip_next t).1 = some v ∧ (p.skip_next t).2.rem = r ∧
    (p.skip_next t).2.doc_ids = p.doc_ids ∧ p.cursor ≤ (p.skip_next t).2.cursor ∧ t ≤ v :=
  (VecPostings.skipF_spec (p.remCount + 1) p t (Nat.lt_succ_self _)).2 v r h

/-- On a successful skip, the remaining list decomposes as
`low ++ v :: r` with every element of `low` below the target. -/
theorem VecPostings.skip_next_decomp (p : VecPostings) (t v : Nat) (r : List Nat)
    (h : p.rem.dropWhile (fun x => x < t) = v :: r) :
    p.rem = p.rem.takeWhile (fun x => x < t) ++ v :: r ∧
      (∀ x ∈ p.rem.takeWhile (fun x => x < t), x < t) := by
  constructor
  · rw [← h, List.takeWhile_append_dropWhile]
  · intro x hx
    have := List.mem_takeWhile_imp hx
    simpa using this

/-- A successful skip strictly decreases the number of remaining
elements. -/
theorem VecPostings.skip_next_some_remCount (p : VecPostings) (t v : Nat) (r : List Nat)
    (h : p.rem.dropWhile (fun x => x < t) = v :: r) :
    (p.skip_next t).2.remCount < p.remCount := by
  obtain ⟨-, hrem, -, -, -⟩ := VecPostings.skip_next_some p t v r h
  obtain ⟨hdec, -⟩ := VecPostings.skip_next_decomp p t v r h
  have hlen : p.rem.length =
      (p.rem.takeWhile (fun x => x < t)).length + (r.length + 1) := by
    conv_lhs => rw [hdec]
    simp
  simp only [VecPostings.remCount, hrem]
  omega

/-! ### The intersection engine

An `IntersectionPostings` value owns exactly its vector of cursors
(`postings: Vec<T>` in the source, instantiated at `T = VecPostings`),
so we represent it directly by the list of cursors. -/

abbrev IntersectionPostings := List VecPostings

/-- `IntersectionPostings::from_postings`. -/
def IntersectionPostings.from_postings (postings : List VecPostings) : IntersectionPostings :=
  postings

/-- Outcome of one production attempt (`IntersectionPostings::next`):
either the out-of-bounds panic of `self.postings[0]` on an empty cursor
vector, or exhaustion (`None`) with the updated cursors, or a produced
doc id (`Some`) with the updated cursors. -/
inductive StepResult where
  | panic : StepResult
  | exhausted : List VecPostings → StepResult
  | yield : Nat → List VecPostings → StepResult
deriving DecidableEq, Repr

/-- Total number of not-yet-consumed elements across the cursors (the
termination measure of the production loop). -/
def totalRem (l : List VecPostings) : Nat :=
  (l.map VecPostings.remCount).sum

theorem totalRem_nil : totalRem [] = 0 := rfl

theorem totalRem_cons (p : VecPostings) (l : List VecPostings) :
    totalRem (p :: l) = p.remCount + totalRem l := by
  simp [totalRem]

theorem totalRem_append (l₁ l₂ : List VecPostings) :
    totalRem (l₁ ++ l₂) = totalRem l₁ + totalRem l₂ := by
  simp [totalRem]

/-- The `'outer` loop of `IntersectionPostings::next`, in explicit-state
form. The cursor vector `postings` of the source is, at loop index `i`,
exactly `pivot :: done ++ todo` with `pivot = postings[0]`,
`done = postings[1..i]` (the cursors that already confirmed the current
candidate in this pass) and `todo = postings[i..]`. The source's
`ptr::swap(&mut postings[i], &mut postings[0])` followed by
`continue 'outer` restarts the scan at index 1, so the new vector is the
winner followed by `done ++ pivot :: rest` — which is what the third
branch passes on. Structural recursion on fuel; each recursive call is
preceded by a successful `skip_next`, which consumes at least one
element, so fuel `> totalRem` never runs out. -/
def scanRecF : Nat → VecPostings → List VecPostings → List VecPostings → Nat → StepResult
  | 0, pivot, done, todo, _ => .exhausted (pivot :: (done ++ todo))
  | fuel + 1, pivot, done, todo, candidate =>
    match todo with
    | [] => .yield candidate (pivot :: done)
    | p :: rest =>
      match p.skip_next candidate with
      | (none, p1) => .exhausted (pivot :: (done ++ p1 :: rest))
      | (some x, p1) =>
        if x = candidate then scanRecF fuel pivot (done ++ [p1]) rest candidate
        else scanRecF fuel p1 [] (done ++ pivot :: rest) x

/-- `IntersectionPostings::next`: read a candidate from cursor 0 by
sequential advance (panicking if the cursor vector is empty), then run
the scan loop over the remaining cursors. -/
def IntersectionPostings.next (ps : IntersectionPostings) : StepResult :=
  match ps with
  | [] => .panic
  | p0 :: rest =>
    match p0.next with
    | (none, p0x) => .exhausted (p0x :: rest)
    | (some val, p0x) => scanRecF (totalRem (p0x :: rest) + 1) p0x [] rest val

/-- Driving the lazy sequence to the end (the `collect()` of the
source's tests), with fuel. -/
def IntersectionPostings.collectF : Nat → IntersectionPostings → List Nat
  | 0, _ => []
  | fuel + 1, ps =>
    match IntersectionPostings.next ps with
    | .yield d s => d :: IntersectionPostings.collectF fuel s
    | _ => []

/-- All doc ids produced by the engine, in production order. -/
def IntersectionPostings.collect (ps : IntersectionPostings) : List Nat :=
  IntersectionPostings.collectF (totalRem ps + 1) ps

example :
    IntersectionPostings.collect
      (IntersectionPostings.from_postings
        [VecPostings.new [1, 3, 9], VecPostings.new [3, 4, 9, 18]]) = [3, 9] := by
  decide

example :
    IntersectionPostings.collect
      (IntersectionPostings.from_postings
        [VecPostings.new [1, 3, 9], VecPostings.new [3, 4, 9, 18],
         VecPostings.new [1, 5, 9, 111]]) = [9] := by
  decide

example :
    IntersectionPostings.collect
      (IntersectionPostings.from_postings [VecPostings.new [1, 3, 9], VecPostings.new []]) = [] := by
  decide

/-! ### Correctness invariants for the scan loop -/

/-- Membership in the "virtual" intersection of a scan state: cursors
that already confirmed the candidate `c` in this pass (the pivot and the
`done` cursors) count `c` as still present ahead of their remaining
elements; unconfirmed cursors count only their remaining elements. -/
def Vmem (pivot : VecPostings) (done todo : List VecPostings) (c x : Nat) : Prop :=
  (x = c ∨ x ∈ pivot.rem) ∧ (∀ p ∈ done, x = c ∨ x ∈ p.rem) ∧ (∀ p ∈ todo, x ∈ p.rem)

/-- Scan-state invariant: all remaining sequences are strictly sorted,
and the confirmed cursors (pivot and `done`) have consumed through the
candidate, so their remaining elements are all above it. -/
def ScanInv (pivot : VecPostings) (done todo : List VecPostings) (c : Nat) : Prop :=
  List.Pairwise (· < ·) pivot.rem ∧
  (∀ p ∈ done, List.Pairwise (· < ·) p.rem) ∧
  (∀ p ∈ todo, List.Pairwise (· < ·) p.rem) ∧
  (∀ x ∈ pivot.rem, c < x) ∧
  (∀ p ∈ done, ∀ x ∈ p.rem, c < x)

/-- From a strictly sorted list decomposed around an element, the part
after the element is strictly sorted and strictly above it. -/
theorem pairwise_decomp (l tw : List Nat) (v : Nat) (r : List Nat)
    (h : l = tw ++ v :: r) (hp : List.Pairwise (· < ·) l) :
    List.Pairwise (· < ·) r ∧ ∀ x ∈ r, v < x := by
  subst h
  have h1 : List.Pairwise (· < ·) (v :: r) := (List.pairwise_append.mp hp).2.1
  rw [List.pairwise_cons] at h1
  exact ⟨h1.2, h1.1⟩

/-- Transfer of virtual membership across the equality branch: cursor
`p` confirms the candidate `c` and moves (advanced to `p1`) into the
confirmed set. -/
theorem Vmem_confirm (pivot : VecPostings) (done rest : List VecPostings)
    (p p1 : VecPostings) (c : Nat) (tw rr : List Nat)
    (hdec : p.rem = tw ++ c :: rr) (htw : ∀ x ∈ tw, x < c) (hrem1 : p1.rem = rr)
    (hGpivot : ∀ x ∈ pivot.rem, c < x) (x : Nat) :
    Vmem pivot (done ++ [p1]) rest c x ↔ Vmem pivot done (p :: rest) c x := by
  constructor
  · rintro ⟨h1, h2, h3⟩
    refine ⟨h1, fun q hq => h2 q (List.mem_append_left _ hq), fun q hq => ?_⟩
    rcases List.mem_cons.mp hq with rfl | hq'
    · have hp1 := h2 p1 (List.mem_append_right _ (List.mem_singleton.mpr rfl))
      rcases hp1 with rfl | hx
      · rw [hdec]
        exact List.mem_append_right _ (List.mem_cons_self _ _)
      · rw [hrem1] at hx
        rw [hdec]
        exact List.mem_append_right _ (List.mem_cons_of_mem _ hx)
    · exact h3 q hq'
  · rintro ⟨h1, h2, h3⟩
    have hxp : x ∈ p.rem := h3 p (List.mem_cons_self _ _)
    refine ⟨h1, fun q hq => ?_, fun q hq => h3 q (List.mem_cons_of_mem _ hq)⟩
    rcases List.mem_append.mp hq with hq' | hq'
    · exact h2 q hq'
    · have hq1 : q = p1 := List.mem_singleton.mp hq'
      subst hq1
      rw [hrem1]
      rw [hdec] at hxp
      rcases List.mem_append.mp hxp with hx | hx
      · have hxc : x < c := htw x hx
        rcases h1 with rfl | hpx
        · omega
        · have := hGpivot x hpx
          omega
      · rcases List.mem_cons.mp hx with h | h
        · exact Or.inl h
        · exact Or.inr h

/-- Transfer of virtual membership across the swap branch: cursor `p`
overshot to `v > c`; it becomes the new pivot (advanced to `p1`), the
old pivot and the confirmed cursors rejoin the unconfirmed scan list. -/
theorem Vmem_swap (pivot : VecPostings) (done rest : List VecPostings)
    (p p1 : VecPostings) (c v : Nat) (tw rr : List Nat)
    (hdec : p.rem = tw ++ v :: rr) (htw : ∀ x ∈ tw, x < c) (hrem1 : p1.rem = rr)
    (hGpivot : ∀ x ∈ pivot.rem, c < x)
    (hgt : ∀ x ∈ rr, v < x) (hcv : c < v) (x : Nat) :
    Vmem p1 [] (done ++ pivot :: rest) v x ↔ Vmem pivot done (p :: rest) c x := by
  constructor
  · rintro ⟨h1, -, h3⟩
    have hxpivot : x ∈ pivot.rem :=
      h3 pivot (List.mem_append_right _ (List.mem_cons_self _ _))
    refine ⟨Or.inr hxpivot, fun q hq => Or.inr (h3 q (List.mem_append_left _ hq)),
      fun q hq => ?_⟩
    rcases List.mem_cons.mp hq with rfl | hq'
    · rw [hdec]
      rcases h1 with rfl | hx
      · exact List.mem_append_right _ (List.mem_cons_self _ _)
      · rw [hrem1] at hx
        exact List.mem_append_right _ (List.mem_cons_of_mem _ hx)
    · exact h3 q (List.mem_append_right _ (List.mem_cons_of_mem _ hq'))
  · rintro ⟨h1, h2, h3⟩
    have hxp : x ∈ p.rem := h3 p (List.mem_cons_self _ _)
    have hxc : x ≠ c := by
      rintro rfl
      rw [hdec] at hxp
      rcases List.mem_append.mp hxp with hx | hx
      · exact absurd (htw _ hx) (lt_irrefl x)
      · rcases List.mem_cons.mp hx with h | h
        · omega
        · have := hgt _ h
          omega
    have hxpiv : x ∈ pivot.rem := by
      rcases h1 with rfl | hx
      · exact absurd rfl hxc
      · exact hx
    have hcx : c < x := hGpivot x hxpiv
    refine ⟨?_, fun q hq => absurd hq (List.not_mem_nil q), fun q hq => ?_⟩
    · rw [hdec] at hxp
      rcases List.mem_append.mp hxp with hx | hx
      · have := htw _ hx
        omega
      · rcases List.mem_cons.mp hx with h | h
        · exact Or.inl h
        · exact Or.inr (by rw [hrem1]; exact h)
    · rcases List.mem_append.mp hq with hq' | hq'
      · rcases h2 q hq' with rfl | hx
        · exact absurd rfl hxc
        · exact hx
      · rcases List.mem_cons.mp hq' with rfl | hq''
        · exact hxpiv
        · exact h3 q (List.mem_cons_of_mem _ hq'')

/-- Main loop lemma for `IntersectionPostings::next`'s scan: under the
scan invariant, an exhausted outcome means the virtual intersection is
empty, and a yielded outcome produces exactly the minimum of the virtual
intersection, leaving a state whose common remaining elements are the
virtual intersection strictly above the produced value. -/
theorem scanRecF_spec (fuel : Nat) :
    ∀ (pivot : VecPostings) (done todo : List VecPostings) (c : Nat),
      totalRem (pivot :: done ++ todo) < fuel →
      ScanInv pivot done todo c →
      ((∀ s, scanRecF fuel pivot done todo c = .exhausted s →
          ¬ ∃ x, Vmem pivot done todo c x) ∧
       (∀ d s, scanRecF fuel pivot done todo c = .yield d s →
          Vmem pivot done todo c d ∧
          (∀ x, Vmem pivot done todo c x → d ≤ x) ∧
          (∀ x, (∀ p ∈ s, x ∈ p.rem) ↔ (Vmem pivot done todo c x ∧ d < x)) ∧
          (∀ p ∈ s, List.Pairwise (· < ·) p.rem) ∧
          s ≠ [] ∧ s.length = (pivot :: done ++ todo).length ∧
          totalRem s ≤ totalRem (pivot :: done ++ todo))) := by
  induction fuel with
  | zero =>
    intro pivot done todo c hf _
    exact absurd hf (Nat.not_lt_zero _)
  | succ fuel ih =>
    intro pivot done todo c hf hinv
    obtain ⟨hPpivot, hPdone, hPtodo, hGpivot, hGdone⟩ := hinv
    cases todo with
    | nil =>
      constructor
      · intro s hs
        simp [scanRecF] at hs
      · intro d s hy
        simp only [scanRecF] at hy
        injection hy with h1 h2
        subst h1
        subst h2
        refine ⟨⟨Or.inl rfl, fun q _ => Or.inl rfl, fun q hq => absurd hq (List.not_mem_nil q)⟩,
          ?_, ?_, ?_, ?_, ?_, ?_⟩
        · intro x hx
          rcases hx.1 with rfl | hxx
          · exact le_refl _
          · exact le_of_lt (hGpivot x hxx)
        · intro x
          constructor
          · intro hall
            have hxpiv := hall pivot (List.mem_cons_self _ _)
            exact ⟨⟨Or.inr hxpiv, fun q hq => Or.inr (hall q (List.mem_cons_of_mem _ hq)),
              fun q hq => absurd hq (List.not_mem_nil q)⟩, hGpivot x hxpiv⟩
          · rintro ⟨⟨h1, h2, _⟩, hcx⟩
            intro q hq
            rcases List.mem_cons.mp hq with rfl | hq'
            · rcases h1 with rfl | hx
              · exact absurd hcx (lt_irrefl _)
              · exact hx
            · rcases h2 q hq' with rfl | hx
              · exact absurd hcx (lt_irrefl _)
              · exact hx
        · intro q hq
          rcases List.mem_cons.mp hq with rfl | hq'
          · exact hPpivot
          · exact hPdone q hq'
        · simp
        · simp
        · rw [List.append_nil]
    | cons p rest =>
      cases hdw : p.rem.dropWhile (fun x => x < c) with
      | nil =>
        obtain ⟨hres, hrem1, hdocs1, hcur1⟩ := VecPostings.skip_next_none p c hdw
        obtain ⟨p1, hsk⟩ : ∃ p1, p.skip_next c = (none, p1) := by
          cases hq : p.skip_next c with
          | mk a b =>
            rw [hq] at hres
            simp at hres
            subst hres
            exact ⟨b, rfl⟩
        have hall : ∀ y ∈ p.rem, y < c := by
          have := List.dropWhile_eq_nil_iff.mp hdw
          simpa using this
        constructor
        · intro s hs hex
          obtain ⟨x, h1, h2, h3⟩ := hex
          have hxp : x ∈ p.rem := h3 p (List.mem_cons_self _ _)
          have hxlt : x < c := hall x hxp
          rcases h1 with rfl | hx
          · omega
          · have := hGpivot x hx
            omega
        · intro d s hy
          simp [scanRecF, hsk] at hy
      | cons v rr =>
        obtain ⟨hres, hrem1, hdocs1, hcur1, hcv⟩ := VecPostings.skip_next_some p c v rr hdw
        obtain ⟨p1, hsk⟩ : ∃ p1, p.skip_next c = (some v, p1) := by
          cases hq : p.skip_next c with
          | mk a b =>
            rw [hq] at hres
            simp at hres
            subst hres
            exact ⟨b, rfl⟩
        rw [hsk] at hrem1 hdocs1 hcur1
        obtain ⟨hdec, htw⟩ := VecPostings.skip_next_decomp p c v rr hdw
        have hPp : List.Pairwise (· < ·) p.rem := hPtodo p (List.mem_cons_self _ _)
        obtain ⟨hPrr, hgtv⟩ := pairwise_decomp p.rem _ v rr hdec hPp
        have hcount : p1.remCount < p.remCount := by
          have := VecPostings.skip_next_some_remCount p c v rr hdw
          rw [hsk] at this
          exact this
        by_cases hvc : v = c
        · subst hvc
          have hstep : scanRecF (fuel + 1) pivot done (p :: rest) v =
              scanRecF fuel pivot (done ++ [p1]) rest v := by
            simp [scanRecF, hsk]
          have hfuel2 : totalRem (pivot :: (done ++ [p1]) ++ rest) < fuel := by
            simp only [totalRem_cons, totalRem_append, totalRem_nil] at hf ⊢
            omega
          have hinv2 : ScanInv pivot (done ++ [p1]) rest v := by
            refine ⟨hPpivot, ?_, fun q hq => hPtodo q (List.mem_cons_of_mem _ hq), hGpivot, ?_⟩
            · intro q hq
              rcases List.mem_append.mp hq with h | h
              · exact hPdone q h
              · have hq1 := List.mem_singleton.mp h
                subst hq1
                rw [hrem1]
                exact hPrr
            · intro q hq x hx
              rcases List.mem_append.mp hq with h | h
              · exact hGdone q h x hx
              · have hq1 := List.mem_singleton.mp h
                subst hq1
                rw [hrem1] at hx
                exact hgtv x hx
          have hiff := fun x => Vmem_confirm pivot done rest p p1 v
            (p.rem.takeWhile (fun y => y < v)) rr hdec htw hrem1 hGpivot x
          have IH := ih pivot (done ++ [p1]) rest v hfuel2 hinv2
          constructor
          · intro s hs hex
            obtain ⟨x, hx⟩ := hex
            refine IH.1 s ?_ ⟨x, (hiff x).mpr hx⟩
            rw [← hstep]
            exact hs
          · intro d s hy
            have hy2 : scanRecF fuel pivot (done ++ [p1]) rest v = .yield d s := by
              rw [← hstep]
              exact hy
            obtain ⟨hV, hmin, hmem, hPs, hne, hlen, htot⟩ := IH.2 d s hy2
            refine ⟨(hiff d).mp hV, fun x hx => hmin x ((hiff x).mpr hx),
              fun x => (hmem x).trans (and_congr_left fun _ => hiff x),
              hPs, hne, ?_, ?_⟩
            · rw [hlen]
              simp only [List.length_cons, List.length_append, List.length_nil]
              omega
            · simp only [totalRem_cons, totalRem_append, totalRem_nil] at htot ⊢
              omega
        · have hvlt : c < v := lt_of_le_of_ne hcv (Ne.symm hvc)
          have hstep : scanRecF (fuel + 1) pivot done (p :: rest) c =
              scanRecF fuel p1 [] (done ++ pivot :: rest) v := by
            simp [scanRecF, hsk, hvc]
          have hfuel2 : totalRem (p1 :: [] ++ (done ++ pivot :: rest)) < fuel := by
            simp only [totalRem_cons, totalRem_append, totalRem_nil, List.nil_append] at hf ⊢
            omega
          have hinv2 : ScanInv p1 [] (done ++ pivot :: rest) v := by
            refine ⟨?_, fun q hq => absurd hq (List.not_mem_nil q), ?_, ?_,
              fun q hq => absurd hq (List.not_mem_nil q)⟩
            · rw [hrem1]
              exact hPrr
            · intro q hq
              rcases List.mem_append.mp hq with h | h
              · exact hPdone q h
              · rcases List.mem_cons.mp h with rfl | h'
                · exact hPpivot
                · exact hPtodo q (List.mem_cons_of_mem _ h')
            · intro x hx
              rw [hrem1] at hx
              exact hgtv x hx
          have hiff := fun x => Vmem_swap pivot done rest p p1 c v
            (p.rem.takeWhile (fun y => y < c)) rr hdec htw hrem1 hGpivot hgtv hvlt x
          have IH := ih p1 [] (done ++ pivot :: rest) v hfuel2 hinv2
          constructor
          · intro s hs hex
            obtain ⟨x, hx⟩ := hex
            refine IH.1 s ?_ ⟨x, (hiff x).mpr hx⟩
            rw [← hstep]
            exact hs
          · intro d s hy
            have hy2 : scanRecF fuel p1 [] (done ++ pivot :: rest) v = .yield d s := by
              rw [← hstep]
              exact hy
            obtain ⟨hV, hmin, hmem, hPs, hne, hlen, htot⟩ := IH.2 d s hy2
            refine ⟨(hiff d).mp hV, fun x hx => hmin x ((hiff x).mpr hx),
              fun x => (hmem x).trans (and_congr_left fun _ => hiff x),
              hPs, hne, ?_, ?_⟩
            · rw [hlen]
              simp only [List.length_cons, List.length_append, List.length_nil,
                List.nil_append]
              omega
            · simp only [totalRem_cons, totalRem_append, totalRem_nil,
                List.nil_append] at htot ⊢
              omega

/-- The scan loop never reaches the panic outcome: all its index
accesses (`postings[i]` for `1 ≤ i < N`) are guarded by the loop bound,
which the structural decomposition mirrors. -/
theorem scanRecF_ne_panic (fuel : Nat) :
    ∀ (pivot : VecPostings) (done todo : List VecPostings) (c : Nat),
      scanRecF fuel pivot done todo c ≠ .panic := by
  induction fuel with
  | zero =>
    intro pivot done todo c h
    simp [scanRecF] at h
  | succ fuel ih =>
    intro pivot done todo c h
    cases todo with
    | nil => simp [scanRecF] at h
    | cons p rest =>
      rw [scanRecF] at h
      cases hq : p.skip_next c with
      | mk a b =>
        rw [hq] at h
        cases a with
        | none => simp at h
        | some x =>
          simp only [] at h
          by_cases hx : x = c
          · rw [if_pos hx] at h
            exact ih _ _ _ _ h
          · rw [if_neg hx] at h
            exact ih _ _ _ _ h

/-- One production attempt of the engine, at the level of remaining
sequences: on a non-empty cursor vector it never panics; exhaustion
means no doc id is common to all remaining sequences; a yield produces
the least common remaining doc id and advances all cursors past it. -/
theorem IntersectionPostings.next_spec (p0 : VecPostings) (rest : List VecPostings)
    (hsorted : ∀ p ∈ p0 :: rest, List.Pairwise (· < ·) p.rem) :
    (∀ s, IntersectionPostings.next (p0 :: rest) = .exhausted s →
        ¬ ∃ x, ∀ p ∈ p0 :: rest, x ∈ p.rem) ∧
    (∀ d s, IntersectionPostings.next (p0 :: rest) = .yield d s →
        (∀ p ∈ p0 :: rest, d ∈ p.rem) ∧
        (∀ x, (∀ p ∈ p0 :: rest, x ∈ p.rem) → d ≤ x) ∧
        (∀ x, (∀ p ∈ s, x ∈ p.rem) ↔ ((∀ p ∈ p0 :: rest, x ∈ p.rem) ∧ d < x)) ∧
        (∀ p ∈ s, List.Pairwise (· < ·) p.rem) ∧
        s ≠ [] ∧ totalRem s < totalRem (p0 :: rest)) := by
  cases hrem : p0.rem with
  | nil =>
    have hnext := VecPostings.next_of_rem_nil p0 hrem
    have hn : IntersectionPostings.next (p0 :: rest) = .exhausted (p0 :: rest) := by
      simp [IntersectionPostings.next, hnext]
    constructor
    · intro s hs hex
      obtain ⟨x, hx⟩ := hex
      have := hx p0 (List.mem_cons_self _ _)
      rw [hrem] at this
      exact List.not_mem_nil x this
    · intro d s hy
      rw [hn] at hy
      exact StepResult.noConfusion hy
  | cons val r0 =>
    obtain ⟨hnext, hrem0⟩ := VecPostings.next_of_rem_cons p0 val r0 hrem
    have hn : IntersectionPostings.next (p0 :: rest) =
        scanRecF (totalRem ({ p0 with cursor := p0.cursor + 1 } :: rest) + 1)
          { p0 with cursor := p0.cursor + 1 } [] rest val := by
      simp [IntersectionPostings.next, hnext]
    have hP0 : List.Pairwise (· < ·) (val :: r0) := by
      rw [← hrem]
      exact hsorted p0 (List.mem_cons_self _ _)
    rw [List.pairwise_cons] at hP0
    have hinv : ScanInv { p0 with cursor := p0.cursor + 1 } [] rest val := by
      refine ⟨?_, fun q hq => absurd hq (List.not_mem_nil q), ?_, ?_,
        fun q hq => absurd hq (List.not_mem_nil q)⟩
      · rw [hrem0]
        exact hP0.2
      · intro q hq
        exact hsorted q (List.mem_cons_of_mem _ hq)
      · intro x hx
        rw [hrem0] at hx
        exact hP0.1 x hx
    have hfuel : totalRem ({ p0 with cursor := p0.cursor + 1 } :: [] ++ rest) <
        totalRem ({ p0 with cursor := p0.cursor + 1 } :: rest) + 1 := by
      simp only [List.singleton_append]
      exact Nat.lt_succ_self _
    have hiff : ∀ x, Vmem { p0 with cursor := p0.cursor + 1 } [] rest val x ↔
        (∀ p ∈ p0 :: rest, x ∈ p.rem) := by
      intro x
      constructor
      · rintro ⟨h1, -, h3⟩
        intro q hq
        rcases List.mem_cons.mp hq with rfl | hq'
        · rw [hrem]
          rcases h1 with rfl | hx
          · exact List.mem_cons_self _ _
          · rw [hrem0] at hx
            exact List.mem_cons_of_mem _ hx
        · exact h3 q hq'
      · intro hall
        have h0 := hall p0 (List.mem_cons_self _ _)
        rw [hrem] at h0
        refine ⟨?_, fun q hq => absurd hq (List.not_mem_nil q),
          fun q hq => hall q (List.mem_cons_of_mem _ hq)⟩
        rcases List.mem_cons.mp h0 with rfl | hx
        · exact Or.inl rfl
        · exact Or.inr (by rw [hrem0]; exact hx)
    have SPEC := scanRecF_spec (totalRem ({ p0 with cursor := p0.cursor + 1 } :: rest) + 1)
      { p0 with cursor := p0.cursor + 1 } [] rest val hfuel hinv
    have hremc : ({ p0 with cursor := p0.cursor + 1 } : VecPostings).remCount < p0.remCount := by
      simp only [VecPostings.remCount, hrem0, hrem, List.length_cons]
      omega
    constructor
    · intro s hs hex
      obtain ⟨x, hx⟩ := hex
      refine SPEC.1 s ?_ ⟨x, (hiff x).mpr hx⟩
      rw [← hn]
      exact hs
    · intro d s hy
      have hy2 : scanRecF (totalRem ({ p0 with cursor := p0.cursor + 1 } :: rest) + 1)
          { p0 with cursor := p0.cursor + 1 } [] rest val = .yield d s := by
        rw [← hn]
        exact hy
      obtain ⟨hV, hmin, hmem, hPs, hne, hlen, htot⟩ := SPEC.2 d s hy2
      refine ⟨(hiff d).mp hV, fun x hx => hmin x ((hiff x).mpr hx),
        fun x => (hmem x).trans (and_congr_left fun _ => hiff x), hPs, hne, ?_⟩
      simp only [List.singleton_append, List.nil_append, totalRem_cons, totalRem_append,
        totalRem_nil] at htot ⊢
      omega

/-- A production attempt panics exactly on the empty cursor vector. -/
theorem IntersectionPostings.next_eq_panic_iff (ps : IntersectionPostings) :
    IntersectionPostings.next ps = .panic ↔ ps = [] := by
  cases ps with
  | nil => simp [IntersectionPostings.next]
  | cons p0 rest =>
    simp only [IntersectionPostings.next]
    constructor
    · intro h
      cases hq : p0.next with
      | mk a b =>
        rw [hq] at h
        cases a with
        | none => exact StepResult.noConfusion h
        | some val => exact absurd h (scanRecF_ne_panic _ _ _ _ _)
    · intro h
      exact List.noConfusion h

/-- Full-run correctness, fuelled: with enough fuel, driving the engine
from sorted cursors returns the sorted list of doc ids common to every
cursor's remaining sequence. -/
theorem IntersectionPostings.collectF_spec (fuel : Nat) :
    ∀ (ps : IntersectionPostings), totalRem ps < fuel → ps ≠ [] →
      (∀ p ∈ ps, List.Pairwise (· < ·) p.rem) →
      List.Pairwise (· < ·) (IntersectionPostings.collectF fuel ps) ∧
      (∀ x, x ∈ IntersectionPostings.collectF fuel ps ↔ ∀ p ∈ ps, x ∈ p.rem) := by
  induction fuel with
  | zero =>
    intro ps hf
    exact absurd hf (Nat.not_lt_zero _)
  | succ fuel ih =>
    intro ps hf hne hsorted
    obtain ⟨p0, rest, rfl⟩ : ∃ p0 rest, ps = p0 :: rest := by
      cases ps with
      | nil => exact absurd rfl hne
      | cons a b => exact ⟨a, b, rfl⟩
    have NS := IntersectionPostings.next_spec p0 rest hsorted
    cases hn : IntersectionPostings.next (p0 :: rest) with
    | panic =>
      have := (IntersectionPostings.next_eq_panic_iff (p0 :: rest)).mp hn
      exact List.noConfusion this
    | exhausted s =>
      have hequ : IntersectionPostings.collectF (fuel + 1) (p0 :: rest) = [] := by
        simp [IntersectionPostings.collectF, hn]
      rw [hequ]
      refine ⟨List.Pairwise.nil, fun x => ?_⟩
      constructor
      · intro hx
        exact absurd hx (List.not_mem_nil x)
      · intro hall
        exact absurd ⟨x, hall⟩ (NS.1 s hn)
    | yield d s =>
      have hequ : IntersectionPostings.collectF (fuel + 1) (p0 :: rest) =
          d :: IntersectionPostings.collectF fuel s := by
        simp [IntersectionPostings.collectF, hn]
      obtain ⟨hdall, hdmin, hmem, hPs, hsne, htot⟩ := NS.2 d s hn
      have IH := ih s (by omega) hsne hPs
      rw [hequ]
      constructor
      · rw [List.pairwise_cons]
        refine ⟨fun y hy => ?_, IH.1⟩
        have := (IH.2 y).mp hy
        exact ((hmem y).mp this).2
      · intro x
        rw [List.mem_cons, IH.2 x, hmem x]
        constructor
        · rintro (rfl | ⟨hx, -⟩)
          · exact hdall
          · exact hx
        · intro hall
          rcases Nat.lt_or_ge d x with hlt | hge
          · exact Or.inr ⟨hall, hlt⟩
          · have := hdmin x hall
            have hxd : x = d := by omega
            exact Or.inl hxd

/-- Two strictly sorted lists with the same members are equal. -/
theorem pairwise_lt_eq_of_mem_iff :
    ∀ (l₁ l₂ : List Nat), List.Pairwise (· < ·) l₁ → List.Pairwise (· < ·) l₂ →
      (∀ x, x ∈ l₁ ↔ x ∈ l₂) → l₁ = l₂ := by
  intro l₁
  induction l₁ with
  | nil =>
    intro l₂ _ _ hm
    cases l₂ with
    | nil => rfl
    | cons a t => exact absurd ((hm a).mpr (List.mem_cons_self a t)) (List.not_mem_nil a)
  | cons a t ihs =>
    intro l₂ h₁ h₂ hm
    cases l₂ with
    | nil => exact absurd ((hm a).mp (List.mem_cons_self a t)) (List.not_mem_nil a)
    | cons b t₂ =>
      rw [List.pairwise_cons] at h₁ h₂
      have hab : a = b := by
        have ha2 : a ∈ b :: t₂ := (hm a).mp (List.mem_cons_self a t)
        have hb1 : b ∈ a :: t := (hm b).mpr (List.mem_cons_self b t₂)
        rcases List.mem_cons.mp ha2 with h | h
        · exact h
        · rcases List.mem_cons.mp hb1 with h' | h'
          · exact h'.symm
          · have hba := h₂.1 a h
            have hab := h₁.1 b h'
            omega
      subst hab
      have ht : t = t₂ := by
        apply ihs t₂ h₁.2 h₂.2
        intro x
        constructor
        · intro hx
          have hax : a < x := h₁.1 x hx
          have hx2 := (hm x).mp (List.mem_cons_of_mem a hx)
          rcases List.mem_cons.mp hx2 with rfl | h
          · omega
          · exact h
        · intro hx
          have hax : a < x := h₂.1 x hx
          have hx1 := (hm x).mpr (List.mem_cons_of_mem a hx)
          rcases List.mem_cons.mp hx1 with rfl | h
          · omega
          · exact h
      rw [ht]

/-- C1: for every collection of N ≥ 1 sorted, duplicate-free doc-id
sequences (as `VecPostings` cursors, the `Postings` implementation of
the file), driving the `IntersectionPostings` engine built from them
produces exactly the set intersection of the sequences, in strictly
increasing order with no duplicates; in particular `[1,3,9]` with
`[3,4,9,18]` yields `[3,9]`, and adding `[1,5,9,111]` yields `[9]`. -/
theorem C1_intersection_correct (ls : List (List Nat)) (hne : ls ≠ [])
    (hsorted : ∀ l ∈ ls, List.Pairwise (· < ·) l) :
    (List.Pairwise (· < ·)
       (IntersectionPostings.collect (IntersectionPostings.from_postings
         (ls.map VecPostings.new))) ∧
     (∀ x, x ∈ IntersectionPostings.collect (IntersectionPostings.from_postings
         (ls.map VecPostings.new)) ↔ ∀ l ∈ ls, x ∈ l)) ∧
    IntersectionPostings.collect (IntersectionPostings.from_postings
      [VecPostings.new [1, 3, 9], VecPostings.new [3, 4, 9, 18]]) = [3, 9] ∧
    IntersectionPostings.collect (IntersectionPostings.from_postings
      [VecPostings.new [1, 3, 9], VecPostings.new [3, 4, 9, 18],
       VecPostings.new [1, 5, 9, 111]]) = [9] := by
  refine ⟨?_, by decide, by decide⟩
  have hne' : ls.map VecPostings.new ≠ [] := by
    intro h
    exact hne (List.map_eq_nil_iff.mp h)
  have hsorted' : ∀ p ∈ ls.map VecPostings.new, List.Pairwise (· < ·) p.rem := by
    intro p hp
    obtain ⟨l, hl, rfl⟩ := List.mem_map.mp hp
    rw [VecPostings.rem_new]
    exact hsorted l hl
  have H := IntersectionPostings.collectF_spec (totalRem (ls.map VecPostings.new) + 1)
    (ls.map VecPostings.new) (Nat.lt_succ_self _) hne' hsorted'
  refine ⟨H.1, fun x => (H.2 x).trans ?_⟩
  constructor
  · intro h l hl
    have := h (VecPostings.new l) (List.mem_map_of_mem _ hl)
    rw [VecPostings.rem_new] at this
    exact this
  · intro h p hp
    obtain ⟨l, hl, rfl⟩ := List.mem_map.mp hp
    rw [VecPostings.rem_new]
    exact h l hl

/-- Witness for C1 at the spec's concrete inputs. -/
theorem C1_intersection_correct_witness :
    (([[1, 3, 9], [3, 4, 9, 18]] : List (List Nat)) ≠ [] ∧
      (∀ l ∈ ([[1, 3, 9], [3, 4, 9, 18]] : List (List Nat)), List.Pairwise (· < ·) l)) ∧
    (List.Pairwise (· < ·)
       (IntersectionPostings.collect (IntersectionPostings.from_postings
         (([[1, 3, 9], [3, 4, 9, 18]] : List (List Nat)).map VecPostings.new))) ∧
     (∀ x, x ∈ IntersectionPostings.collect (IntersectionPostings.from_postings
         (([[1, 3, 9], [3, 4, 9, 18]] : List (List Nat)).map VecPostings.new)) ↔
        ∀ l ∈ ([[1, 3, 9], [3, 4, 9, 18]] : List (List Nat)), x ∈ l)) :=
  ⟨⟨by decide, by decide⟩,
    (C1_intersection_correct [[1, 3, 9], [3, 4, 9, 18]] (by decide) (by decide)).1⟩

/-- C8: the engine over a single sorted duplicate-free sequence is a
pass-through: it reproduces the sequence unchanged. -/
theorem C8_single_sequence_passthrough (l : List Nat)
    (hs : List.Pairwise (· < ·) l) :
    IntersectionPostings.collect (IntersectionPostings.from_postings
      [VecPostings.new l]) = l := by
  have hne : ([VecPostings.new l] : List VecPostings) ≠ [] := by simp
  have hsorted : ∀ p ∈ [VecPostings.new l], List.Pairwise (· < ·) p.rem := by
    intro p hp
    rw [List.mem_singleton.mp hp, VecPostings.rem_new]
    exact hs
  have H := IntersectionPostings.collectF_spec (totalRem [VecPostings.new l] + 1)
    [VecPostings.new l] (Nat.lt_succ_self _) hne hsorted
  apply pairwise_lt_eq_of_mem_iff _ _ H.1 hs
  intro x
  refine (H.2 x).trans ?_
  constructor
  · intro h
    have := h (VecPostings.new l) (List.mem_singleton.mpr rfl)
    rw [VecPostings.rem_new] at this
    exact this
  · intro h p hp
    rw [List.mem_singleton.mp hp, VecPostings.rem_new]
    exact h

/-- Witness for C8 at a concrete sorted list. -/
theorem C8_single_sequence_passthrough_witness :
    List.Pairwise (· < ·) ([1, 3, 9] : List Nat) ∧
    IntersectionPostings.collect (IntersectionPostings.from_postings
      [VecPostings.new [1, 3, 9]]) = [1, 3, 9] :=
  ⟨by decide, C8_single_sequence_passthrough [1, 3, 9] (by decide)⟩

/-- C9: under the precondition N ≥ 1 the production step never reaches
the out-of-bounds panic (all scan-loop accesses are guarded by the loop
bound, which the structural decomposition reflects), and on an empty
cursor vector the access `postings[0]` panics. -/
theorem C9_panic_iff_empty (ps : IntersectionPostings) :
    IntersectionPostings.next ps = .panic ↔ ps = [] :=
  IntersectionPostings.next_eq_panic_iff ps

/-- The state reported with an exhausted outcome is non-empty and
contains a fully consumed cursor (under sufficient fuel). -/
theorem scanRecF_exhausted_state (fuel : Nat) :
    ∀ (pivot : VecPostings) (done todo : List VecPostings) (c : Nat) (s : List VecPostings),
      totalRem (pivot :: done ++ todo) < fuel →
      scanRecF fuel pivot done todo c = .exhausted s →
      (∃ p ∈ s, p.rem = []) ∧ s ≠ [] := by
  induction fuel with
  | zero =>
    intro pivot done todo c s hf
    exact absurd hf (Nat.not_lt_zero _)
  | succ fuel ih =>
    intro pivot done todo c s hf h
    cases todo with
    | nil => simp [scanRecF] at h
    | cons p rest =>
      cases hdw : p.rem.dropWhile (fun x => x < c) with
      | nil =>
        obtain ⟨hres, hrem1, hdocs1, hcur1⟩ := VecPostings.skip_next_none p c hdw
        obtain ⟨p1, hsk⟩ : ∃ p1, p.skip_next c = (none, p1) := by
          cases hq : p.skip_next c with
          | mk a b =>
            rw [hq] at hres
            simp at hres
            subst hres
            exact ⟨b, rfl⟩
        rw [hsk] at hrem1
        rw [scanRecF, hsk] at h
        simp only [] at h
        injection h with hse
        subst hse
        refine ⟨⟨p1, ?_, hrem1⟩, by simp⟩
        simp
      | cons v rr =>
        obtain ⟨hres, hrem1, hdocs1, hcur1, hcv⟩ := VecPostings.skip_next_some p c v rr hdw
        obtain ⟨p1, hsk⟩ : ∃ p1, p.skip_next c = (some v, p1) := by
          cases hq : p.skip_next c with
          | mk a b =>
            rw [hq] at hres
            simp at hres
            subst hres
            exact ⟨b, rfl⟩
        have hcount : p1.remCount < p.remCount := by
          have := VecPostings.skip_next_some_remCount p c v rr hdw
          rw [hsk] at this
          exact this
        rw [scanRecF, hsk] at h
        simp only [] at h
        by_cases hvc : v = c
        · rw [if_pos hvc] at h
          refine ih pivot (done ++ [p1]) rest c s ?_ h
          simp only [totalRem_cons, totalRem_append, totalRem_nil] at hf ⊢
          omega
        · rw [if_neg hvc] at h
          refine ih p1 [] (done ++ pivot :: rest) v s ?_ h
          simp only [totalRem_cons, totalRem_append, totalRem_nil, List.nil_append] at hf ⊢
          omega

/-- If some unconfirmed cursor is already fully consumed, the scan
always reports exhaustion, with a fully consumed cursor still present. -/
theorem scanRecF_of_empty_cursor (fuel : Nat) :
    ∀ (pivot : VecPostings) (done todo : List VecPostings) (c : Nat),
      (∃ p ∈ todo, p.rem = []) →
      ∃ s, scanRecF fuel pivot done todo c = .exhausted s ∧
        (∃ p ∈ s, p.rem = []) ∧ s ≠ [] := by
  induction fuel with
  | zero =>
    intro pivot done todo c hemp
    obtain ⟨p, hp, hrem⟩ := hemp
    exact ⟨pivot :: (done ++ todo), rfl,
      ⟨p, by simp [List.mem_append.mpr (Or.inr hp)], hrem⟩, by simp⟩
  | succ fuel ih =>
    intro pivot done todo c hemp
    obtain ⟨pe, hpe, hpe_rem⟩ := hemp
    cases todo with
    | nil => exact absurd hpe (List.not_mem_nil pe)
    | cons p rest =>
      rcases List.mem_cons.mp hpe with rfl | hpe'
      · have hdw : pe.rem.dropWhile (fun x => x < c) = [] := by
          rw [hpe_rem]
          rfl
        obtain ⟨hres, hrem1, hdocs1, hcur1⟩ := VecPostings.skip_next_none pe c hdw
        obtain ⟨p1, hsk⟩ : ∃ p1, pe.skip_next c = (none, p1) := by
          cases hq : pe.skip_next c with
          | mk a b =>
            rw [hq] at hres
            simp at hres
            subst hres
            exact ⟨b, rfl⟩
        rw [hsk] at hrem1
        refine ⟨pivot :: (done ++ p1 :: rest), ?_, ⟨p1, by simp, hrem1⟩, by simp⟩
        rw [scanRecF, hsk]
      · cases hdw : p.rem.dropWhile (fun x => x < c) with
        | nil =>
          obtain ⟨hres, hrem1, hdocs1, hcur1⟩ := VecPostings.skip_next_none p c hdw
          obtain ⟨p1, hsk⟩ : ∃ p1, p.skip_next c = (none, p1) := by
            cases hq : p.skip_next c with
            | mk a b =>
              rw [hq] at hres
              simp at hres
              subst hres
              exact ⟨b, rfl⟩
          rw [hsk] at hrem1
          refine ⟨pivot :: (done ++ p1 :: rest), ?_, ⟨p1, by simp, hrem1⟩, by simp⟩
          rw [scanRecF, hsk]
        | cons v rr =>
          obtain ⟨hres, hrem1, hdocs1, hcur1, hcv⟩ := VecPostings.skip_next_some p c v rr hdw
          obtain ⟨p1, hsk⟩ : ∃ p1, p.skip_next c = (some v, p1) := by
            cases hq : p.skip_next c with
            | mk a b =>
              rw [hq] at hres
              simp at hres
              subst hres
              exact ⟨b, rfl⟩
          by_cases hvc : v = c
          · obtain ⟨s, hs, hse, hsne⟩ := ih pivot (done ++ [p1]) rest c ⟨pe, hpe', hpe_rem⟩
            refine ⟨s, ?_, hse, hsne⟩
            rw [scanRecF, hsk]
            simp only []
            rw [if_pos hvc]
            exact hs
          · obtain ⟨s, hs, hse, hsne⟩ := ih p1 [] (done ++ pivot :: rest) v
              ⟨pe, List.mem_append_right _ (List.mem_cons_of_mem _ hpe'), hpe_rem⟩
            refine ⟨s, ?_, hse, hsne⟩
            rw [scanRecF, hsk]
            simp only []
            rw [if_neg hvc]
            exact hs

/-- An exhausted production attempt leaves a non-empty state containing
a fully consumed cursor. -/
theorem IntersectionPostings.next_exhausted_state (ps : IntersectionPostings)
    (s : List VecPostings) (h : IntersectionPostings.next ps = .exhausted s) :
    (∃ p ∈ s, p.rem = []) ∧ s ≠ [] := by
  cases ps with
  | nil => simp [IntersectionPostings.next] at h
  | cons p0 rest =>
    cases hrem : p0.rem with
    | nil =>
      have hnext := VecPostings.next_of_rem_nil p0 hrem
      rw [IntersectionPostings.next, hnext] at h
      simp only [] at h
      injection h with hse
      subst hse
      exact ⟨⟨p0, List.mem_cons_self _ _, hrem⟩, by simp⟩
    | cons val r0 =>
      obtain ⟨hnext, hrem0⟩ := VecPostings.next_of_rem_cons p0 val r0 hrem
      rw [IntersectionPostings.next, hnext] at h
      refine scanRecF_exhausted_state _ _ _ _ _ _ ?_ h
      simp only [List.singleton_append]
      exact Nat.lt_succ_self _

/-- Any state with a fully consumed cursor produces an exhausted
outcome (with such a cursor still present), provided it is non-empty. -/
theorem IntersectionPostings.next_of_empty_cursor (ps : IntersectionPostings)
    (hne : ps ≠ []) (hemp : ∃ p ∈ ps, p.rem = []) :
    ∃ s, IntersectionPostings.next ps = .exhausted s ∧
      (∃ p ∈ s, p.rem = []) ∧ s ≠ [] := by
  cases ps with
  | nil => exact absurd rfl hne
  | cons p0 rest =>
    cases hrem : p0.rem with
    | nil =>
      have hnext := VecPostings.next_of_rem_nil p0 hrem
      refine ⟨p0 :: rest, ?_, ⟨p0, List.mem_cons_self _ _, hrem⟩, by simp⟩
      rw [IntersectionPostings.next, hnext]
    | cons val r0 =>
      obtain ⟨pe, hpe, hpe_rem⟩ := hemp
      have hpe' : pe ∈ rest := by
        rcases List.mem_cons.mp hpe with rfl | h
        · rw [hrem] at hpe_rem
          exact absurd hpe_rem (List.cons_ne_nil _ _)
        · exact h
      obtain ⟨hnext, hrem0⟩ := VecPostings.next_of_rem_cons p0 val r0 hrem
      obtain ⟨s, hs, hse, hsne⟩ := scanRecF_of_empty_cursor
        (totalRem ({ p0 with cursor := p0.cursor + 1 } :: rest) + 1)
        { p0 with cursor := p0.cursor + 1 } [] rest val ⟨pe, hpe', hpe_rem⟩
      refine ⟨s, ?_, hse, hsne⟩
      rw [IntersectionPostings.next, hnext]
      exact hs

/-- The successor state of a production attempt (used to express that
exhaustion is a permanent, terminal condition). -/
def nextState (ps : IntersectionPostings) : IntersectionPostings :=
  match IntersectionPostings.next ps with
  | .panic => []
  | .exhausted s => s
  | .yield _ s => s

/-- C7: once a production attempt reports exhaustion, every subsequent
production attempt also reports exhaustion (permanent terminal state);
and a state containing an already-empty cursor yields the empty
intersection. -/
theorem C7_exhaustion_terminal :
    (∀ (ps : IntersectionPostings) (s : List VecPostings),
        IntersectionPostings.next ps = .exhausted s →
        ∀ k : Nat, ∃ s', IntersectionPostings.next (nextState^[k] s) = .exhausted s') ∧
    (∀ ps : IntersectionPostings, (∃ p ∈ ps, p.rem = []) →
        IntersectionPostings.collect ps = []) := by
  constructor
  · intro ps s h k
    obtain ⟨hse, hsne⟩ := IntersectionPostings.next_exhausted_state ps s h
    clear h
    induction k generalizing s with
    | zero =>
      obtain ⟨s', hs', -, -⟩ := IntersectionPostings.next_of_empty_cursor s hsne hse
      exact ⟨s', by simpa using hs'⟩
    | succ k ihk =>
      obtain ⟨s', hs', hse', hsne'⟩ := IntersectionPostings.next_of_empty_cursor s hsne hse
      have hns : nextState s = s' := by
        rw [nextState, hs']
      have := ihk s' hse' hsne'
      obtain ⟨s'', hs''⟩ := this
      refine ⟨s'', ?_⟩
      rw [Function.iterate_succ_apply, hns]
      exact hs''
  · intro ps hemp
    cases hps : ps with
    | nil => rfl
    | cons p0 rest =>
      subst hps
      obtain ⟨s, hs, -, -⟩ :=
        IntersectionPostings.next_of_empty_cursor (p0 :: rest) (by simp) hemp
      show IntersectionPostings.collectF (totalRem (p0 :: rest) + 1) (p0 :: rest) = []
      rw [IntersectionPostings.collectF, hs]

/-- Witness for C7: a one-element engine over an empty list is
exhausted immediately and permanently. -/
theorem C7_exhaustion_terminal_witness :
    (IntersectionPostings.next [VecPostings.new []] =
      .exhausted [VecPostings.new []]) ∧
    (∃ s', IntersectionPostings.next (nextState^[1] [VecPostings.new []]) =
      .exhausted s') ∧
    IntersectionPostings.collect [VecPostings.new [], VecPostings.new [1, 2]] = [] :=
  ⟨by decide,
   C7_exhaustion_terminal.1 [VecPostings.new []] [VecPostings.new []] (by decide) 1,
   C7_exhaustion_terminal.2 [VecPostings.new [], VecPostings.new [1, 2]]
     ⟨VecPostings.new [], by decide, by decide⟩⟩

/-- C3 counterexample: on `VecPostings [1,3,9]` after `next()` has
returned `1` (cursor = 1, last returned value 1), `skip_next(1)` — a
skip to a target not greater than the most recently returned value —
does NOT return the last-returned value again: it consumes and returns
`3`, moving the cursor to 2. So skip-ahead is not a no-op there. -/
theorem C3_counterexample :
    (({ doc_ids := [1, 3, 9], cursor := 1 } : VecPostings).skip_next 1).1 ≠ some 1 ∧
    (({ doc_ids := [1, 3, 9], cursor := 1 } : VecPostings).skip_next 1).2.cursor ≠ 1 ∧
    (({ doc_ids := [1, 3, 9], cursor := 1 } : VecPostings).skip_next 1).1 = some 3 ∧
    (({ doc_ids := [1, 3, 9], cursor := 1 } : VecPostings).skip_next 1).2.cursor = 2 := by
  decide

/-- C3 amended: `VecPostings::skip_next` never moves the cursor
backward, never changes the underlying sequence, and any value it
returns is `≥ target` and drawn from the not-yet-consumed remainder (so
no earlier value is ever re-emitted as new) — but a skip to a target
not greater than the last returned value is not a no-op: it consumes
and returns the next remaining value `≥ target` rather than repeating
the last-returned value. -/
theorem C3_skip_next_monotone (p : VecPostings) (t : Nat) :
    p.cursor ≤ (p.skip_next t).2.cursor ∧
    (p.skip_next t).2.doc_ids = p.doc_ids ∧
    (∀ v, (p.skip_next t).1 = some v → t ≤ v ∧ v ∈ p.rem) := by
  cases hdw : p.rem.dropWhile (fun x => x < t) with
  | nil =>
    obtain ⟨hres, hrem1, hdocs1, hcur1⟩ := VecPostings.skip_next_none p t hdw
    refine ⟨hcur1, hdocs1, fun v hv => ?_⟩
    rw [hres] at hv
    exact Option.noConfusion hv
  | cons v rr =>
    obtain ⟨hres, hrem1, hdocs1, hcur1, htv⟩ := VecPostings.skip_next_some p t v rr hdw
    obtain ⟨hdec, -⟩ := VecPostings.skip_next_decomp p t v rr hdw
    refine ⟨hcur1, hdocs1, fun v' hv' => ?_⟩
    rw [hres] at hv'
    injection hv' with hvv
    subst hvv
    refine ⟨htv, ?_⟩
    rw [hdec]
    exact List.mem_append_right _ (List.mem_cons_self _ _)

/-- Witness for the amended C3 at the counterexample's input. -/
theorem C3_skip_next_monotone_witness :
    1 ≤ (({ doc_ids := [1, 3, 9], cursor := 1 } : VecPostings).skip_next 1).2.cursor ∧
    (({ doc_ids := [1, 3, 9], cursor := 1 } : VecPostings).skip_next 1).2.doc_ids =
      [1, 3, 9] ∧
    (1 ≤ 3 ∧ 3 ∈ ({ doc_ids := [1, 3, 9], cursor := 1 } : VecPostings).rem) :=
  ⟨(C3_skip_next_monotone { doc_ids := [1, 3, 9], cursor := 1 } 1).1,
   (C3_skip_next_monotone { doc_ids := [1, 3, 9], cursor := 1 } 1).2.1,
   (C3_skip_next_monotone { doc_ids := [1, 3, 9], cursor := 1 } 1).2.2 3 (by decide)⟩

/-! ### The postings accumulator (`PostingsWriter`)

`Term` and `DocId` are opaque ordered types; both are modelled by `Nat`.
The `BTreeMap<Term, usize>` is modelled as an association list kept
sorted by key (which is exactly the iteration order `BTreeMap` provides);
`get` and `insert` are the map operations the source uses. -/

/-- `BTreeMap::get`. -/
def btreeGet : List (Nat × Nat) → Nat → Option Nat
  | [], _ => none
  | (k1, v1) :: rest, k => if k = k1 then some v1 else btreeGet rest k

/-- `BTreeMap::insert` (key-ordered insertion; replaces an equal key). -/
def btreeInsert : List (Nat × Nat) → Nat → Nat → List (Nat × Nat)
  | [], k, v => [(k, v)]
  | (k1, v1) :: rest, k, v =>
    if k < k1 then (k, v) :: (k1, v1) :: rest
    else if k = k1 then (k, v) :: rest
    else (k1, v1) :: btreeInsert rest k v

/-- The accumulator: a dense vector of per-term doc-id sequences plus
the term-to-handle map. -/
structure PostingsWriter where
  postings : List (List Nat)
  term_index : List (Nat × Nat)
deriving DecidableEq, Repr

/-- `PostingsWriter::new`. -/
def PostingsWriter.new : PostingsWriter :=
  { postings := [], term_index := [] }

/-- `PostingsWriter::get_term_postings`: look up the term's handle,
creating a fresh handle (the current map size) backed by a new empty
slot on a miss; returns the handle and the updated accumulator. -/
def PostingsWriter.get_term_postings (w : PostingsWriter) (term : Nat) :
    Nat × PostingsWriter :=
  match btreeGet w.term_index term with
  | some unord_id => (unord_id, w)
  | none =>
    (w.term_index.length,
     { postings := w.postings ++ [[]],
       term_index := btreeInsert w.term_index term w.term_index.length })

/-- `PostingsWriter::suscribe` (sic): append `doc` to the term's
sequence only if the sequence is empty or its last element is `< doc`. -/
def PostingsWriter.suscribe (w : PostingsWriter) (doc : Nat) (term : Nat) :
    PostingsWriter :=
  let r := w.get_term_postings term
  let doc_ids := r.2.postings.getD r.1 []
  if doc_ids.length = 0 ∨ doc_ids.getD (doc_ids.length - 1) 0 < doc then
    { r.2 with postings := r.2.postings.set r.1 (doc_ids ++ [doc]) }
  else r.2

/-- The two calls `serialize` issues to the segment-writing
collaborator (`new_term` with the term and its doc frequency, and
`write_docs` with the full doc-id sequence). -/
inductive SerEvent where
  | newTerm (term : Nat) (docfreq : Nat) : SerEvent
  | writeDocs (docs : List Nat) : SerEvent
deriving DecidableEq, Repr

/-- The segment-writer collaborator, abstracted by its observable
behaviour: given the calls made so far and the next call, it either
accepts (`none`) or reports an I/O failure code (`some e`). -/
abbrev SegmentSerializer := List SerEvent → SerEvent → Option Nat

/-- The loop body of `PostingsWriter::serialize`: iterate the term map
entries in order; for each, call `new_term(term, docfreq)` then
`write_docs(doc_ids)`, propagating the first failure immediately
(`try!`). Returns the result together with the trace of calls issued. -/
def serializeLoop (postings : List (List Nat)) (ser : SegmentSerializer) :
    List (Nat × Nat) → List SerEvent → Except Nat Unit × List SerEvent
  | [], trace => (Except.ok (), trace)
  | (term, postings_id) :: rest, trace =>
    let doc_ids := postings.getD postings_id []
    match ser trace (SerEvent.newTerm term doc_ids.length) with
    | some e => (Except.error e, trace ++ [SerEvent.newTerm term doc_ids.length])
    | none =>
      match ser (trace ++ [SerEvent.newTerm term doc_ids.length])
          (SerEvent.writeDocs doc_ids) with
      | some e => (Except.error e,
          trace ++ [SerEvent.newTerm term doc_ids.length, SerEvent.writeDocs doc_ids])
      | none => serializeLoop postings ser rest
          (trace ++ [SerEvent.newTerm term doc_ids.length, SerEvent.writeDocs doc_ids])

/-- `PostingsWriter::serialize`. -/
def PostingsWriter.serialize (w : PostingsWriter) (ser : SegmentSerializer) :
    Except Nat Unit × List SerEvent :=
  serializeLoop w.postings ser w.term_index []

/-- A collaborator that never fails. -/
def alwaysOk : SegmentSerializer := fun _ _ => none

/-! ### Specification-side derived notions for the accumulator -/

/-- The accumulator reached by a sequence of `(doc, term)` subscribe
calls from the fresh accumulator. -/
def buildWriter (calls : List (Nat × Nat)) : PostingsWriter :=
  calls.foldl (fun w c => w.suscribe c.1 c.2) PostingsWriter.new

/-- The distinct terms of a call sequence, in first-occurrence order. -/
def distinctTerms (calls : List (Nat × Nat)) : List Nat :=
  calls.foldl (fun acc c => if c.2 ∈ acc then acc else acc ++ [c.2]) []

/-- The doc-id sequence the accumulator stores for term `t` after the
given calls: each call for `t` appends its doc exactly when the
sequence is empty or the doc exceeds the current last element. -/
def accumDocs (calls : List (Nat × Nat)) (t : Nat) : List Nat :=
  calls.foldl
    (fun l c =>
      if c.2 = t then
        (if l.length = 0 ∨ l.getD (l.length - 1) 0 < c.1 then l ++ [c.1] else l)
      else l) []

/-- Index of the first occurrence of `t` in `l`. -/
def firstIdx : List Nat → Nat → Option Nat
  | [], _ => none
  | a :: rest, t => if t = a then some 0 else (firstIdx rest t).map (· + 1)

theorem buildWriter_concat (calls : List (Nat × Nat)) (c : Nat × Nat) :
    buildWriter (calls ++ [c]) = (buildWriter calls).suscribe c.1 c.2 := by
  simp [buildWriter, List.foldl_append]

theorem distinctTerms_concat (calls : List (Nat × Nat)) (c : Nat × Nat) :
    distinctTerms (calls ++ [c]) =
      if c.2 ∈ distinctTerms calls then distinctTerms calls
      else distinctTerms calls ++ [c.2] := by
  simp [distinctTerms, List.foldl_append]

theorem accumDocs_concat (calls : List (Nat × Nat)) (c : Nat × Nat) (t : Nat) :
    accumDocs (calls ++ [c]) t =
      if c.2 = t then
        (if (accumDocs calls t).length = 0 ∨
            (accumDocs calls t).getD ((accumDocs calls t).length - 1) 0 < c.1 then
          accumDocs calls t ++ [c.1]
        else accumDocs calls t)
      else accumDocs calls t := by
  simp [accumDocs, List.foldl_append]

/-! ### Helper lemmas for list indexing -/

theorem getD_set {α : Type} (l : List α) (i j : Nat) (a d : α) :
    (l.set i a).getD j d = if i = j ∧ i < l.length then a else l.getD j d := by
  rw [List.getD_eq_getElem?_getD, List.getElem?_set]
  by_cases h : i = j
  · subst h
    by_cases h2 : i < l.length <;>
      simp [h2, List.getD_eq_getElem?_getD, List.getElem?_eq_none, Nat.le_of_not_lt]
  · simp [h, List.getD_eq_getElem?_getD]

theorem getD_append_lt {α : Type} (l1 l2 : List α) (j : Nat) (d : α)
    (h : j < l1.length) : (l1 ++ l2).getD j d = l1.getD j d := by
  rw [List.getD_eq_getElem?_getD, List.getElem?_append, if_pos h,
    ← List.getD_eq_getElem?_getD]

theorem getD_append_ge {α : Type} (l1 l2 : List α) (j : Nat) (d : α)
    (h : l1.length ≤ j) : (l1 ++ l2).getD j d = l2.getD (j - l1.length) d := by
  rw [List.getD_eq_getElem?_getD, List.getElem?_append, if_neg (Nat.not_lt.mpr h),
    ← List.getD_eq_getElem?_getD]

/-- Appending an element above the last one preserves strict sortedness
(the guard of `suscribe`, expressed on `getD`). -/
theorem pairwise_append_last (l : List Nat) (d : Nat)
    (hp : List.Pairwise (· < ·) l)
    (hcond : l.length = 0 ∨ l.getD (l.length - 1) 0 < d) :
    List.Pairwise (· < ·) (l ++ [d]) := by
  induction l with
  | nil => simp
  | cons a rest ih =>
    rw [List.pairwise_cons] at hp
    cases rest with
    | nil =>
      have had : a < d := by
        rcases hcond with h | h
        · simp at h
        · simpa using h
      refine List.pairwise_cons.mpr ⟨?_, by simp⟩
      intro y hy
      have hyd : y = d := by simpa using hy
      subst hyd
      exact had
    | cons b rest2 =>
      have hcond' : (b :: rest2).length = 0 ∨
          (b :: rest2).getD ((b :: rest2).length - 1) 0 < d := by
        rcases hcond with h | h
        · simp at h
        · right
          simpa using h
      have hih := ih hp.2 hcond'
      refine List.pairwise_cons.mpr ⟨?_, hih⟩
      intro y hy
      rcases List.mem_append.mp hy with h | h
      · exact hp.1 y h
      · have hyd : y = d := List.mem_singleton.mp h
        subst hyd
        have hlt : (b :: rest2).length - 1 < (b :: rest2).length := by simp
        have hlast_mem : (b :: rest2).getD ((b :: rest2).length - 1) 0 ∈ b :: rest2 := by
          rw [List.getD_eq_getElem?_getD, List.getElem?_eq_getElem hlt]
          exact List.getElem_mem hlt
        have h1 : a < (b :: rest2).getD ((b :: rest2).length - 1) 0 := hp.1 _ hlast_mem
        rcases hcond' with h2 | h2
        · simp at h2
        · omega

theorem pairwise_getD_set (l : List (List Nat)) (i : Nat) (a : List Nat)
    (hl : ∀ j, List.Pairwise (· < ·) (l.getD j []))
    (ha : List.Pairwise (· < ·) a) (j : Nat) :
    List.Pairwise (· < ·) ((l.set i a).getD j []) := by
  rw [getD_set]
  split
  · exact ha
  · exact hl j

theorem pairwise_getD_append_nil (l : List (List Nat))
    (hl : ∀ j, List.Pairwise (· < ·) (l.getD j [])) (j : Nat) :
    List.Pairwise (· < ·) ((l ++ [[]]).getD j []) := by
  by_cases h : j < l.length
  · rw [getD_append_lt _ _ _ _ h]
    exact hl j
  · rw [getD_append_ge _ _ _ _ (Nat.le_of_not_lt h)]
    have he : ∀ k, ([[]] : List (List Nat)).getD k [] = ([] : List Nat) := by
      intro k
      cases k <;> rfl
    rw [he]
    exact List.Pairwise.nil

/-- One subscribe call preserves strict sortedness of every stored
sequence. -/
theorem suscribe_pairwise (w : PostingsWriter) (dc t : Nat)
    (hw : ∀ j, List.Pairwise (· < ·) (w.postings.getD j [])) (j : Nat) :
    List.Pairwise (· < ·) ((w.suscribe dc t).postings.getD j []) := by
  unfold PostingsWriter.suscribe
  cases hbg : btreeGet w.term_index t with
  | some i =>
    simp only [PostingsWriter.get_term_postings, hbg]
    split
    · next hcond =>
      exact pairwise_getD_set _ _ _ hw (pairwise_append_last _ _ (hw i) hcond) j
    · exact hw j
  | none =>
    simp only [PostingsWriter.get_term_postings, hbg]
    have hw1 : ∀ k, List.Pairwise (· < ·) ((w.postings ++ [[]]).getD k []) :=
      pairwise_getD_append_nil _ hw
    split
    · next hcond =>
      exact pairwise_getD_set _ _ _ hw1 (pairwise_append_last _ _ (hw1 _) hcond) j
    · exact hw1 j

/-- C2: after any sequence of subscribe calls, every stored doc-id
sequence is strictly increasing (so duplicates and out-of-order
arrivals are silently dropped and the call never fails); in particular
subscribing docs 5, 3, 5 for one term stores exactly `[5]`. -/
theorem C2_stored_sequences_strictly_increasing :
    (∀ (calls : List (Nat × Nat)) (id : Nat),
        List.Pairwise (· < ·) ((buildWriter calls).postings.getD id [])) ∧
    (buildWriter [(5, 7), (3, 7), (5, 7)]).postings = [[5]] := by
  constructor
  · intro calls
    induction calls using List.reverseRecOn with
    | nil =>
      intro id
      simp [buildWriter, PostingsWriter.new]
    | append_singleton cs c ih =>
      rw [buildWriter_concat]
      exact suscribe_pairwise _ _ _ ih
  · rfl

/-! ### Lemmas about the ordered map and first-occurrence indices -/

theorem btreeGet_insert_self (m : List (Nat × Nat)) (k v : Nat) :
    btreeGet (btreeInsert m k v) k = some v := by
  induction m with
  | nil => simp [btreeInsert, btreeGet]
  | cons e rest ih =>
    obtain ⟨k1, v1⟩ := e
    by_cases h1 : k < k1
    · simp [btreeInsert, h1, btreeGet]
    · by_cases h2 : k = k1
      · simp [btreeInsert, h1, h2, btreeGet]
      · simp [btreeInsert, h1, h2, btreeGet, ih]

theorem btreeGet_insert_ne (m : List (Nat × Nat)) (k v k' : Nat) (h : k' ≠ k) :
    btreeGet (btreeInsert m k v) k' = btreeGet m k' := by
  induction m with
  | nil => simp [btreeInsert, btreeGet, h]
  | cons e rest ih =>
    obtain ⟨k1, v1⟩ := e
    by_cases h1 : k < k1
    · simp [btreeInsert, h1, btreeGet, h]
    · by_cases h2 : k = k1
      · subst h2
        simp [btreeInsert, h1, btreeGet, h]
      · by_cases h3 : k' = k1
        · simp [btreeInsert, h1, h2, btreeGet, h3]
        · simp [btreeInsert, h1, h2, btreeGet, h3, ih]

theorem btreeInsert_length_of_get_none (m : List (Nat × Nat)) (k v : Nat)
    (h : btreeGet m k = none) :
    (btreeInsert m k v).length = m.length + 1 := by
  induction m with
  | nil => rfl
  | cons e rest ih =>
    obtain ⟨k1, v1⟩ := e
    rw [btreeGet] at h
    by_cases h2 : k = k1
    · simp [h2] at h
    · rw [if_neg h2] at h
      by_cases h1 : k < k1
      · simp [btreeInsert, h1]
      · simp [btreeInsert, h1, h2, ih h]

theorem btreeInsert_keys_subset (m : List (Nat × Nat)) (k v a : Nat)
    (h : a ∈ (btreeInsert m k v).map Prod.fst) : a = k ∨ a ∈ m.map Prod.fst := by
  induction m with
  | nil =>
    simp [btreeInsert] at h
    exact Or.inl h
  | cons e rest ih =>
    obtain ⟨k1, v1⟩ := e
    by_cases h1 : k < k1
    · simp [btreeInsert, h1] at h
      rcases h with h | h | h
      · exact Or.inl h
      · exact Or.inr (by simp [h])
      · exact Or.inr (by simp [h])
    · by_cases h2 : k = k1
      · subst h2
        simp [btreeInsert, h1] at h
        rcases h with h | h
        · exact Or.inl h
        · exact Or.inr (by simp [h])
      · simp only [btreeInsert, if_neg h1, if_neg h2, List.map_cons, List.mem_cons] at h
        rcases h with h | h
        · exact Or.inr (by simp [h])
        · rcases ih h with h' | h'
          · exact Or.inl h'
          · exact Or.inr (by simp [h'])

theorem btreeInsert_keys_sorted (m : List (Nat × Nat)) (k v : Nat)
    (h : List.Pairwise (· < ·) (m.map Prod.fst)) :
    List.Pairwise (· < ·) ((btreeInsert m k v).map Prod.fst) := by
  induction m with
  | nil => simp [btreeInsert]
  | cons e rest ih =>
    obtain ⟨k1, v1⟩ := e
    simp only [List.map_cons, List.pairwise_cons] at h
    by_cases h1 : k < k1
    · simp only [btreeInsert, if_pos h1, List.map_cons, List.pairwise_cons]
      refine ⟨?_, h.1, h.2⟩
      intro b hb
      rcases List.mem_cons.mp hb with rfl | hb'
      · exact h1
      · exact Nat.lt_trans h1 (h.1 b hb')
    · by_cases h2 : k = k1
      · subst h2
        have heq : btreeInsert ((k, v1) :: rest) k v = (k, v) :: rest := by
          rw [btreeInsert, if_neg h1, if_pos rfl]
        rw [heq]
        simp only [List.map_cons, List.pairwise_cons]
        exact h
      · simp only [btreeInsert, if_neg h1, if_neg h2, List.map_cons, List.pairwise_cons]
        refine ⟨?_, ih h.2⟩
        intro b hb
        rcases btreeInsert_keys_subset rest k v b hb with rfl | hb'
        · omega
        · exact h.1 b hb'

theorem btreeGet_mem (m : List (Nat × Nat)) (t id : Nat)
    (h : btreeGet m t = some id) : (t, id) ∈ m := by
  induction m with
  | nil => simp [btreeGet] at h
  | cons e rest ih =>
    obtain ⟨k1, v1⟩ := e
    rw [btreeGet] at h
    by_cases h2 : t = k1
    · rw [if_pos h2] at h
      injection h with h
      subst h2
      subst h
      exact List.mem_cons_self _ _
    · rw [if_neg h2] at h
      exact List.mem_cons_of_mem _ (ih h)

theorem mem_btreeGet (m : List (Nat × Nat)) (t id : Nat)
    (hsorted : List.Pairwise (· < ·) (m.map Prod.fst))
    (h : (t, id) ∈ m) : btreeGet m t = some id := by
  induction m with
  | nil => simp at h
  | cons e rest ih =>
    obtain ⟨k1, v1⟩ := e
    simp only [List.map_cons, List.pairwise_cons] at hsorted
    rcases List.mem_cons.mp h with h' | h'
    · injection h' with h1 h2
      subst h1
      subst h2
      simp [btreeGet]
    · have ht : t ∈ rest.map Prod.fst := by
        exact List.mem_map_of_mem Prod.fst h'
      have hne : t ≠ k1 := by
        have := hsorted.1 t ht
        omega
      rw [btreeGet, if_neg hne]
      exact ih hsorted.2 h'

theorem firstIdx_eq_none (l : List Nat) (t : Nat) :
    firstIdx l t = none ↔ t ∉ l := by
  induction l with
  | nil => simp [firstIdx]
  | cons a rest ih =>
    by_cases h : t = a
    · simp [firstIdx, h]
    · simp [firstIdx, h, ih]

theorem firstIdx_lt_length (l : List Nat) (t k : Nat) (h : firstIdx l t = some k) :
    k < l.length := by
  induction l generalizing k with
  | nil => simp [firstIdx] at h
  | cons a rest ih =>
    rw [firstIdx] at h
    by_cases h2 : t = a
    · rw [if_pos h2] at h
      injection h with h
      subst h
      simp
    · rw [if_neg h2] at h
      cases hr : firstIdx rest t with
      | none => rw [hr] at h; simp at h
      | some k' =>
        rw [hr] at h
        simp at h
        have := ih k' hr
        simp [← h]
        omega

theorem firstIdx_injective (l : List Nat) (t t' k : Nat)
    (h1 : firstIdx l t = some k) (h2 : firstIdx l t' = some k) : t = t' := by
  induction l generalizing k with
  | nil => simp [firstIdx] at h1
  | cons a rest ih =>
    rw [firstIdx] at h1 h2
    by_cases ha : t = a
    · rw [if_pos ha] at h1
      injection h1 with h1
      by_cases ha' : t' = a
      · rw [ha, ha']
      · rw [if_neg ha'] at h2
        cases hr : firstIdx rest t' with
        | none => rw [hr] at h2; simp at h2
        | some k' =>
          rw [hr] at h2
          simp at h2
          omega
    · rw [if_neg ha] at h1
      by_cases ha' : t' = a
      · rw [if_pos ha'] at h2
        injection h2 with h2
        cases hr : firstIdx rest t with
        | none => rw [hr] at h1; simp at h1
        | some k' =>
          rw [hr] at h1
          simp at h1
          omega
      · rw [if_neg ha'] at h2
        cases hr : firstIdx rest t with
        | none => rw [hr] at h1; simp at h1
        | some k1 =>
          cases hr' : firstIdx rest t' with
          | none => rw [hr'] at h2; simp at h2
          | some k2 =>
            rw [hr] at h1
            rw [hr'] at h2
            simp at h1 h2
            have hk : k1 = k2 := by omega
            subst hk
            exact ih k1 hr hr'

theorem firstIdx_append_new (l : List Nat) (t : Nat) (h : t ∉ l) :
    firstIdx (l ++ [t]) t = some l.length := by
  induction l with
  | nil => simp [firstIdx]
  | cons a rest ih =>
    simp only [List.mem_cons, not_or] at h
    rw [List.cons_append, firstIdx, if_neg h.1, ih h.2]
    simp

theorem firstIdx_append_ne (l : List Nat) (a t : Nat) (h : t ≠ a) :
    firstIdx (l ++ [a]) t = firstIdx l t := by
  induction l with
  | nil => simp [firstIdx, h]
  | cons b rest ih =>
    by_cases h2 : t = b
    · simp [firstIdx, h2]
    · simp [firstIdx, h2, ih]

theorem firstIdx_append_of_some (l l2 : List Nat) (t k : Nat)
    (h : firstIdx l t = some k) : firstIdx (l ++ l2) t = some k := by
  induction l generalizing k with
  | nil => simp [firstIdx] at h
  | cons a rest ih =>
    rw [firstIdx] at h
    by_cases h2 : t = a
    · rw [if_pos h2] at h
      simp [firstIdx, h2, ← h]
    · rw [if_neg h2] at h
      cases hr : firstIdx rest t with
      | none => rw [hr] at h; simp at h
      | some k' =>
        rw [hr] at h
        rw [List.cons_append, firstIdx, if_neg h2, ih k' hr]
        exact h

/-- Reduction of `suscribe` when the term already has a handle. -/
theorem suscribe_found (w : PostingsWriter) (d t i : Nat)
    (hbg : btreeGet w.term_index t = some i) :
    w.suscribe d t =
      if (w.postings.getD i []).length = 0 ∨
          (w.postings.getD i []).getD ((w.postings.getD i []).length - 1) 0 < d then
        { w with postings := w.postings.set i (w.postings.getD i [] ++ [d]) }
      else w := by
  unfold PostingsWriter.suscribe
  simp [PostingsWriter.get_term_postings, hbg]

/-- Reduction of `suscribe` on a fresh term (when the dense store and
the map agree in size, as they always do for reachable accumulators):
a new empty slot is created and the doc is appended to it. -/
theorem suscribe_new (w : PostingsWriter) (d t : Nat)
    (hbg : btreeGet w.term_index t = none)
    (hlen : w.term_index.length = w.postings.length) :
    w.suscribe d t =
      { postings := (w.postings ++ [[]]).set w.term_index.length [d],
        term_index := btreeInsert w.term_index t w.term_index.length } := by
  unfold PostingsWriter.suscribe
  simp only [PostingsWriter.get_term_postings, hbg]
  have hdoc : (w.postings ++ [[]])[w.term_index.length]?.getD [] = ([] : List Nat) := by
    rw [← List.getD_eq_getElem?_getD, hlen, getD_append_ge _ _ _ _ (le_refl _)]
    simp
  simp [hdoc]

theorem mem_distinctTerms (calls : List (Nat × Nat)) (t : Nat) :
    t ∈ distinctTerms calls ↔ ∃ d, (d, t) ∈ calls := by
  induction calls using List.reverseRecOn with
  | nil => simp [distinctTerms]
  | append_singleton cs c ih =>
    rw [distinctTerms_concat]
    by_cases hc : c.2 ∈ distinctTerms cs
    · rw [if_pos hc]
      constructor
      · intro h
        obtain ⟨d, hd⟩ := ih.mp h
        exact ⟨d, List.mem_append_left _ hd⟩
      · rintro ⟨d, hd⟩
        rcases List.mem_append.mp hd with h | h
        · exact ih.mpr ⟨d, h⟩
        · have : (d, t) = c := List.mem_singleton.mp h
          have ht : t = c.2 := by rw [← this]
          rw [ht]
          exact hc
    · rw [if_neg hc]
      constructor
      · intro h
        rcases List.mem_append.mp h with h' | h'
        · obtain ⟨d, hd⟩ := ih.mp h'
          exact ⟨d, List.mem_append_left _ hd⟩
        · have ht : t = c.2 := List.mem_singleton.mp h'
          exact ⟨c.1, List.mem_append_right _ (by rw [ht]; simp)⟩
      · rintro ⟨d, hd⟩
        rcases List.mem_append.mp hd with h | h
        · exact List.mem_append_left _ (ih.mpr ⟨d, h⟩)
        · have : (d, t) = c := List.mem_singleton.mp h
          have ht : t = c.2 := by rw [← this]
          exact List.mem_append_right _ (by rw [ht]; simp)

theorem accumDocs_eq_nil (calls : List (Nat × Nat)) (t : Nat)
    (h : ∀ d, (d, t) ∉ calls) : accumDocs calls t = [] := by
  induction calls using List.reverseRecOn with
  | nil => rfl
  | append_singleton cs c ih =>
    have hne : c.2 ≠ t := by
      intro he
      exact h c.1 (List.mem_append_right _ (by rw [← he]; simp))
    rw [accumDocs_concat, if_neg hne]
    exact ih fun d hd => h d (List.mem_append_left _ hd)

/-- `buildWriter` over a snoc, with the pair components exposed. -/
theorem buildWriter_snoc (cs : List (Nat × Nat)) (d t : Nat) :
    buildWriter (cs ++ [(d, t)]) = (buildWriter cs).suscribe d t := by
  simp [buildWriter, List.foldl_append]

theorem distinctTerms_snoc (cs : List (Nat × Nat)) (d t : Nat) :
    distinctTerms (cs ++ [(d, t)]) =
      if t ∈ distinctTerms cs then distinctTerms cs else distinctTerms cs ++ [t] := by
  simp [distinctTerms, List.foldl_append]

theorem accumDocs_snoc_self (cs : List (Nat × Nat)) (d t : Nat) :
    accumDocs (cs ++ [(d, t)]) t =
      if (accumDocs cs t).length = 0 ∨
          (accumDocs cs t).getD ((accumDocs cs t).length - 1) 0 < d then
        accumDocs cs t ++ [d]
      else accumDocs cs t := by
  simp [accumDocs, List.foldl_append]

theorem accumDocs_snoc_ne (cs : List (Nat × Nat)) (d t t' : Nat) (h : t ≠ t') :
    accumDocs (cs ++ [(d, t)]) t' = accumDocs cs t' := by
  simp [accumDocs, List.foldl_append, h]

/-- Master invariant of the accumulator under subscribe folds: the map
and the dense store have one entry per distinct term; the handle of a
term is the index of its first occurrence among the distinct terms (in
first-seen order); the map iterates in strictly ascending key order;
and the slot of each handle holds exactly that term's accumulated doc
sequence. -/
theorem writerInv (calls : List (Nat × Nat)) :
    (buildWriter calls).term_index.length = (distinctTerms calls).length ∧
    (buildWriter calls).postings.length = (distinctTerms calls).length ∧
    (∀ t, btreeGet (buildWriter calls).term_index t = firstIdx (distinctTerms calls) t) ∧
    List.Pairwise (· < ·) ((buildWriter calls).term_index.map Prod.fst) ∧
    (∀ t k, btreeGet (buildWriter calls).term_index t = some k →
        (buildWriter calls).postings.getD k [] = accumDocs calls t) := by
  induction calls using List.reverseRecOn with
  | nil =>
    refine ⟨rfl, rfl, fun t => rfl, List.Pairwise.nil, fun t k h => ?_⟩
    simp [buildWriter, PostingsWriter.new, btreeGet] at h
  | append_singleton cs c ih =>
    obtain ⟨ih1, ih2, ih3, ih4, ih5⟩ := ih
    obtain ⟨d, t⟩ := c
    rw [buildWriter_snoc]
    cases hbg : btreeGet (buildWriter cs).term_index t with
    | some i =>
      have hfi : firstIdx (distinctTerms cs) t = some i := by
        rw [← ih3 t]
        exact hbg
      have htmem : t ∈ distinctTerms cs := by
        by_contra hnm
        rw [(firstIdx_eq_none _ _).mpr hnm] at hfi
        exact Option.noConfusion hfi
      have hd' : distinctTerms (cs ++ [(d, t)]) = distinctTerms cs := by
        rw [distinctTerms_snoc, if_pos htmem]
      have hilt : i < (distinctTerms cs).length := firstIdx_lt_length _ _ _ hfi
      have hplt : i < (buildWriter cs).postings.length := by omega
      have hacc : accumDocs cs t = (buildWriter cs).postings.getD i [] :=
        (ih5 t i hbg).symm
      rw [suscribe_found _ _ _ _ hbg, hd']
      split
      · next hcond =>
        refine ⟨ih1, by simpa using ih2, ih3, ih4, fun t' k' hk' => ?_⟩
        by_cases htt : t' = t
        · subst htt
          have hki : k' = i := by
            rw [hbg] at hk'
            injection hk' with h
            exact h.symm
          subst hki
          rw [accumDocs_snoc_self, hacc, if_pos hcond, getD_set, if_pos ⟨rfl, hplt⟩]
        · have hfi' : firstIdx (distinctTerms cs) t' = some k' := by
            rw [← ih3 t']
            exact hk'
          have hne : k' ≠ i := by
            intro he
            exact htt (firstIdx_injective _ _ _ _ (he ▸ hfi') hfi)
          rw [accumDocs_snoc_ne _ _ _ _ (fun he => htt he.symm)]
          rw [getD_set, if_neg (fun hc => hne hc.1.symm)]
          exact ih5 t' k' hk'
      · next hcond =>
        refine ⟨ih1, ih2, ih3, ih4, fun t' k' hk' => ?_⟩
        by_cases htt : t' = t
        · subst htt
          have hki : k' = i := by
            rw [hbg] at hk'
            injection hk' with h
            exact h.symm
          subst hki
          rw [accumDocs_snoc_self, hacc, if_neg hcond]
        · rw [accumDocs_snoc_ne _ _ _ _ (fun he => htt he.symm)]
          exact ih5 t' k' hk'
    | none =>
      have hfi : firstIdx (distinctTerms cs) t = none := by
        rw [← ih3 t]
        exact hbg
      have htnm : t ∉ distinctTerms cs := (firstIdx_eq_none _ _).mp hfi
      have hd' : distinctTerms (cs ++ [(d, t)]) = distinctTerms cs ++ [t] := by
        rw [distinctTerms_snoc, if_neg htnm]
      have hlen : (buildWriter cs).term_index.length = (buildWriter cs).postings.length := by
        omega
      rw [suscribe_new _ _ _ hbg hlen, hd']
      refine ⟨?_, ?_, ?_, btreeInsert_keys_sorted _ _ _ ih4, ?_⟩
      · show (btreeInsert (buildWriter cs).term_index t
          (buildWriter cs).term_index.length).length = (distinctTerms cs ++ [t]).length
        rw [btreeInsert_length_of_get_none _ _ _ hbg]
        simp only [List.length_append, List.length_cons, List.length_nil]
        omega
      · show (((buildWriter cs).postings ++ [[]]).set
          (buildWriter cs).term_index.length [d]).length = (distinctTerms cs ++ [t]).length
        simp only [List.length_set, List.length_append, List.length_cons, List.length_nil]
        omega
      · intro t'
        by_cases htt : t' = t
        · subst htt
          rw [btreeGet_insert_self, firstIdx_append_new _ _ htnm, ih1]
        · rw [btreeGet_insert_ne _ _ _ _ htt, firstIdx_append_ne _ _ _ htt]
          exact ih3 t'
      · intro t' k' hk'
        by_cases htt : t' = t
        · subst htt
          rw [btreeGet_insert_self] at hk'
          injection hk' with hki
          have hki' : k' = (buildWriter cs).term_index.length := hki.symm
          subst hki'
          have hset : (((buildWriter cs).postings ++ [[]]).set
              (buildWriter cs).term_index.length [d]).getD
              (buildWriter cs).term_index.length [] = [d] := by
            rw [getD_set]
            rw [if_pos ⟨rfl, by
              simp only [List.length_append, List.length_cons, List.length_nil]
              omega⟩]
          rw [hset, accumDocs_snoc_self]
          have hnil : accumDocs cs t' = [] := by
            apply accumDocs_eq_nil
            intro dd hdd
            exact htnm ((mem_distinctTerms cs t').mpr ⟨dd, hdd⟩)
          rw [hnil]
          simp
        · rw [btreeGet_insert_ne _ _ _ _ htt] at hk'
          have hfi' : firstIdx (distinctTerms cs) t' = some k' := by
            rw [← ih3 t']
            exact hk'
          have hklt : k' < (distinctTerms cs).length := firstIdx_lt_length _ _ _ hfi'
          rw [accumDocs_snoc_ne _ _ _ _ (fun he => htt he.symm)]
          rw [getD_set, if_neg (fun hc => by omega)]
          rw [getD_append_lt _ _ _ _ (by omega)]
          exact ih5 t' k' hk'

/-- Distinct terms of an extended call sequence extend the old ones. -/
theorem distinctTerms_prefix (cs extra : List (Nat × Nat)) :
    ∃ s, distinctTerms (cs ++ extra) = distinctTerms cs ++ s := by
  induction extra using List.reverseRecOn with
  | nil => exact ⟨[], by simp⟩
  | append_singleton ex c ihe =>
    obtain ⟨s, hs⟩ := ihe
    rw [← List.append_assoc, distinctTerms_concat]
    by_cases hc : c.2 ∈ distinctTerms (cs ++ ex)
    · rw [if_pos hc]
      exact ⟨s, hs⟩
    · rw [if_neg hc]
      exact ⟨s ++ [c.2], by rw [hs, List.append_assoc]⟩

/-- C6: the k-th distinct term encountered (first-occurrence order)
gets handle k (the handle of a term is the index of its first
occurrence among the distinct terms); distinct terms never share a
handle; a handle, once assigned, survives any further subscribes
unchanged; and each handle indexes that term's own accumulated doc-id
sequence in the dense store. -/
theorem C6_handle_assignment :
    (∀ (calls : List (Nat × Nat)) (t : Nat),
        btreeGet (buildWriter calls).term_index t = firstIdx (distinctTerms calls) t) ∧
    (∀ (calls : List (Nat × Nat)) (t t' k : Nat),
        btreeGet (buildWriter calls).term_index t = some k →
        btreeGet (buildWriter calls).term_index t' = some k → t = t') ∧
    (∀ (calls extra : List (Nat × Nat)) (t k : Nat),
        btreeGet (buildWriter calls).term_index t = some k →
        btreeGet (buildWriter (calls ++ extra)).term_index t = some k) ∧
    (∀ (calls : List (Nat × Nat)) (t k : Nat),
        btreeGet (buildWriter calls).term_index t = some k →
        (buildWriter calls).postings.getD k [] = accumDocs calls t) := by
  refine ⟨fun calls t => (writerInv calls).2.2.1 t, ?_, ?_, ?_⟩
  · intro calls t t' k h h'
    rw [(writerInv calls).2.2.1 t] at h
    rw [(writerInv calls).2.2.1 t'] at h'
    exact firstIdx_injective _ _ _ _ h h'
  · intro calls extra t k h
    rw [(writerInv calls).2.2.1 t] at h
    rw [(writerInv (calls ++ extra)).2.2.1 t]
    obtain ⟨s, hs⟩ := distinctTerms_prefix calls extra
    rw [hs]
    exact firstIdx_append_of_some _ _ _ _ h
  · intro calls t k h
    exact (writerInv calls).2.2.2.2 t k h

/-- Witness for C6: after subscribing term 10 then 20, handles are 0
and 1; after further subscribes the handle of 10 is unchanged. -/
theorem C6_handle_assignment_witness :
    btreeGet (buildWriter [(1, 10), (2, 20)]).term_index 10 = some 0 ∧
    btreeGet (buildWriter ([(1, 10), (2, 20)] ++ [(3, 30), (4, 10)])).term_index 10 =
      some 0 :=
  ⟨by decide,
   C6_handle_assignment.2.2.1 [(1, 10), (2, 20)] [(3, 30), (4, 10)] 10 0 (by decide)⟩

/-- The pair of events `serialize` issues for one term entry. -/
def termEvents (postings : List (List Nat)) (e : Nat × Nat) : List SerEvent :=
  [SerEvent.newTerm e.1 (postings.getD e.2 []).length,
   SerEvent.writeDocs (postings.getD e.2 [])]

/-- The full event stream `serialize` issues when nothing fails: per
map entry in order, a begin-term event with the term and its document
frequency, then the term's full stored doc-id sequence. -/
def fullTrace (postings : List (List Nat)) : List (Nat × Nat) → List SerEvent
  | [] => []
  | e :: rest => termEvents postings e ++ fullTrace postings rest

/-- Reduction of one `serialize` iteration (zeta-reduced form). -/
theorem serializeLoop_cons (postings : List (List Nat)) (ser : SegmentSerializer)
    (term pid : Nat) (rest : List (Nat × Nat)) (trace : List SerEvent) :
    serializeLoop postings ser ((term, pid) :: rest) trace =
      match ser trace (SerEvent.newTerm term (postings.getD pid []).length) with
      | some e => (Except.error e,
          trace ++ [SerEvent.newTerm term (postings.getD pid []).length])
      | none =>
        match ser (trace ++ [SerEvent.newTerm term (postings.getD pid []).length])
            (SerEvent.writeDocs (postings.getD pid [])) with
        | some e => (Except.error e,
            trace ++ [SerEvent.newTerm term (postings.getD pid []).length,
              SerEvent.writeDocs (postings.getD pid [])])
        | none => serializeLoop postings ser rest
            (trace ++ [SerEvent.newTerm term (postings.getD pid []).length,
              SerEvent.writeDocs (postings.getD pid [])]) := rfl

/-- With a never-failing collaborator, `serialize` succeeds and issues
exactly the full event stream. -/
theorem serializeLoop_alwaysOk (postings : List (List Nat)) :
    ∀ (entries : List (Nat × Nat)) (trace : List SerEvent),
      serializeLoop postings alwaysOk entries trace =
        (Except.ok (), trace ++ fullTrace postings entries) := by
  intro entries
  induction entries with
  | nil =>
    intro trace
    simp [serializeLoop, fullTrace]
  | cons e rest ih =>
    intro trace
    obtain ⟨term, pid⟩ := e
    rw [serializeLoop_cons]
    show serializeLoop postings alwaysOk rest _ = _
    rw [ih]
    simp [fullTrace, termEvents]

/-- C4: serialization visits terms in strictly ascending key order
(regardless of handle/insertion order), emitting for each term one
begin-term event with that term and a document frequency equal to the
stored sequence's length, followed by the full stored sequence; e.g.
subscribing term 1 (\"a\"), then 2 (\"b\"), then 1 again emits term 1
before term 2. -/
theorem C4_serialize_sorted :
    (∀ calls : List (Nat × Nat),
      ((buildWriter calls).serialize alwaysOk).2 =
        fullTrace (buildWriter calls).postings (buildWriter calls).term_index ∧
      List.Pairwise (· < ·) ((buildWriter calls).term_index.map Prod.fst)) ∧
    ((buildWriter [(0, 1), (1, 2), (2, 1)]).serialize alwaysOk).2 =
      [SerEvent.newTerm 1 2, SerEvent.writeDocs [0, 2],
       SerEvent.newTerm 2 1, SerEvent.writeDocs [1]] := by
  constructor
  · intro calls
    constructor
    · rw [PostingsWriter.serialize, serializeLoop_alwaysOk]
      simp
    · exact (writerInv calls).2.2.2.1
  · rfl

/-- A term that was actually subscribed has a non-empty accumulated
sequence (its first arrival always appends, and appends never shrink). -/
theorem accumDocs_ne_nil (calls : List (Nat × Nat)) (t : Nat)
    (h : ∃ d, (d, t) ∈ calls) : accumDocs calls t ≠ [] := by
  induction calls using List.reverseRecOn with
  | nil => simp at h
  | append_singleton cs c ih =>
    obtain ⟨dd, tt⟩ := c
    obtain ⟨d, hd⟩ := h
    by_cases htt : tt = t
    · subst htt
      rw [accumDocs_snoc_self]
      split
      · next => simp
      · next hcond =>
        intro hnil
        rw [hnil] at hcond
        simp at hcond
    · rw [accumDocs_snoc_ne _ _ _ _ htt]
      rcases List.mem_append.mp hd with hin | hin
      · exact ih ⟨d, hin⟩
      · have := List.mem_singleton.mp hin
        injection this with h1 h2
        exact absurd h2.symm htt

/-- Every event of the full trace belongs to some map entry. -/
theorem mem_fullTrace (postings : List (List Nat)) (entries : List (Nat × Nat))
    (ev : SerEvent) (h : ev ∈ fullTrace postings entries) :
    ∃ e ∈ entries, ev ∈ termEvents postings e := by
  induction entries with
  | nil => simp [fullTrace] at h
  | cons e rest ih =>
    rw [fullTrace] at h
    rcases List.mem_append.mp h with h' | h'
    · exact ⟨e, List.mem_cons_self _ _, h'⟩
    · obtain ⟨e', he', hev⟩ := ih h'
      exact ⟨e', List.mem_cons_of_mem _ he', hev⟩

/-- C10: every term present in the accumulator's index has a non-empty
stored doc-id sequence (the first subscribe for a new term always
appends), so serialization never emits a begin-term event with document
frequency 0. -/
theorem C10_no_empty_sequences :
    (∀ (calls : List (Nat × Nat)) (t id : Nat),
        btreeGet (buildWriter calls).term_index t = some id →
        (buildWriter calls).postings.getD id [] ≠ []) ∧
    (∀ (calls : List (Nat × Nat)) (t : Nat),
        SerEvent.newTerm t 0 ∉ ((buildWriter calls).serialize alwaysOk).2) := by
  have key : ∀ (calls : List (Nat × Nat)) (t id : Nat),
      btreeGet (buildWriter calls).term_index t = some id →
      (buildWriter calls).postings.getD id [] ≠ [] := by
    intro calls t id h
    rw [(writerInv calls).2.2.2.2 t id h]
    apply accumDocs_ne_nil
    have hfi : firstIdx (distinctTerms calls) t = some id := by
      rw [← (writerInv calls).2.2.1 t]
      exact h
    have htm : t ∈ distinctTerms calls := by
      by_contra hnm
      rw [(firstIdx_eq_none _ _).mpr hnm] at hfi
      exact Option.noConfusion hfi
    exact (mem_distinctTerms calls t).mp htm
  refine ⟨key, fun calls t hmem => ?_⟩
  rw [PostingsWriter.serialize, serializeLoop_alwaysOk] at hmem
  simp only [List.nil_append] at hmem
  obtain ⟨e, he, hev⟩ := mem_fullTrace _ _ _ hmem
  rw [termEvents] at hev
  rcases List.mem_cons.mp hev with h' | h'
  · injection h' with h1 h2
    have hget : btreeGet (buildWriter calls).term_index e.1 = some e.2 := by
      apply mem_btreeGet _ _ _ (writerInv calls).2.2.2.1
      exact he
    have := key calls e.1 e.2 hget
    have hlen : ((buildWriter calls).postings.getD e.2 []).length = 0 := h2.symm
    rw [List.length_eq_zero] at hlen
    exact this hlen
  · have : SerEvent.newTerm t 0 = SerEvent.writeDocs ((buildWriter calls).postings.getD e.2 []) :=
      List.mem_singleton.mp h'
    exact SerEvent.noConfusion this

/-- Witness for C10 at a concrete subscribe. -/
theorem C10_no_empty_sequences_witness :
    (buildWriter [(5, 7)]).postings.getD 0 [] ≠ [] ∧
    SerEvent.newTerm 7 0 ∉ ((buildWriter [(5, 7)]).serialize alwaysOk).2 :=
  ⟨C10_no_empty_sequences.1 [(5, 7)] 7 0 (by decide),
   C10_no_empty_sequences.2 [(5, 7)] 7⟩

/-- Generic event runner: issue each event in turn to the collaborator,
stopping at the first failure (the `try!` pattern of `serialize`,
decoupled from how the event stream is produced). -/
def runEvents (ser : SegmentSerializer) : List SerEvent → List SerEvent →
    Except Nat Unit × List SerEvent
  | prior, [] => (Except.ok (), prior)
  | prior, ev :: rest =>
    match ser prior ev with
    | some e => (Except.error e, prior ++ [ev])
    | none => runEvents ser (prior ++ [ev]) rest

/-- The serialize loop is the generic runner over the full trace. -/
theorem serializeLoop_eq_runEvents (postings : List (List Nat)) (ser : SegmentSerializer) :
    ∀ (entries : List (Nat × Nat)) (prior : List SerEvent),
      serializeLoop postings ser entries prior = runEvents ser prior (fullTrace postings entries) := by
  intro entries
  induction entries with
  | nil =>
    intro prior
    rfl
  | cons e rest ih =>
    intro prior
    obtain ⟨term, pid⟩ := e
    rw [serializeLoop_cons]
    cases hs1 : ser prior (SerEvent.newTerm term (postings.getD pid []).length) with
    | some e0 =>
      simp only [fullTrace, termEvents, List.cons_append, List.nil_append, runEvents, hs1]
    | none =>
      cases hs2 : ser (prior ++ [SerEvent.newTerm term (postings.getD pid []).length])
          (SerEvent.writeDocs (postings.getD pid [])) with
      | some e0 =>
        simp only [fullTrace, termEvents, List.cons_append, List.nil_append, runEvents,
          hs1, hs2]
        simp
      | none =>
        simp only [fullTrace, termEvents, List.cons_append, List.nil_append, runEvents,
          hs1, hs2]
        rw [ih]
        congr 1
        simp

/-- Fail-fast specification of the event runner: success means every
event was approved and the whole stream was issued; an error is exactly
the first failure the collaborator reports, every earlier event was
approved, and no event past the failing one was issued. -/
theorem runEvents_spec (ser : SegmentSerializer) :
    ∀ (evs prior : List SerEvent),
      (((runEvents ser prior evs).1 = Except.ok ()) ↔
        (∀ k ev, evs[k]? = some ev → ser (prior ++ evs.take k) ev = none)) ∧
      ((runEvents ser prior evs).1 = Except.ok () →
        (runEvents ser prior evs).2 = prior ++ evs) ∧
      (∀ e, (runEvents ser prior evs).1 = Except.error e →
        ∃ k ev, evs[k]? = some ev ∧
          (runEvents ser prior evs).2 = prior ++ evs.take k ++ [ev] ∧
          (∀ j ev', j < k → evs[j]? = some ev' → ser (prior ++ evs.take j) ev' = none) ∧
          ser (prior ++ evs.take k) ev = some e) := by
  intro evs
  induction evs with
  | nil =>
    intro prior
    refine ⟨?_, fun _ => by simp [runEvents], fun e he => ?_⟩
    · constructor
      · intro _ k ev hk
        simp at hk
      · intro _
        rfl
    · simp [runEvents] at he
  | cons ev0 rest ih =>
    intro prior
    cases hs : ser prior ev0 with
    | some e0 =>
      have hred : runEvents ser prior (ev0 :: rest) = (Except.error e0, prior ++ [ev0]) := by
        simp only [runEvents, hs]
      rw [hred]
      refine ⟨?_, fun h => by simp at h, fun e he => ?_⟩
      · constructor
        · intro h
          simp at h
        · intro hR
          exfalso
          have h0 := hR 0 ev0 (by simp)
          rw [List.take_zero, List.append_nil, hs] at h0
          exact Option.noConfusion h0
      · have he0 : e0 = e := by
          simp at he
          exact he
        refine ⟨0, ev0, by simp, by simp, fun j ev' hj _ => absurd hj (Nat.not_lt_zero j), ?_⟩
        rw [List.take_zero, List.append_nil, hs, he0]
    | none =>
      have hred : runEvents ser prior (ev0 :: rest) = runEvents ser (prior ++ [ev0]) rest := by
        simp only [runEvents, hs]
      have IH := ih (prior ++ [ev0])
      have happ : ∀ X : List SerEvent, prior ++ ev0 :: X = (prior ++ [ev0]) ++ X := by
        intro X
        simp
      rw [hred]
      refine ⟨?_, ?_, ?_⟩
      · constructor
        · intro hok k ev hk
          cases k with
          | zero =>
            simp only [List.getElem?_cons_zero] at hk
            injection hk with hk
            subst hk
            rw [List.take_zero, List.append_nil]
            exact hs
          | succ n =>
            have hk' : rest[n]? = some ev := by simpa using hk
            have := (IH.1).mp hok n ev hk'
            rw [List.take_succ_cons, happ]
            exact this
        · intro hR
          apply (IH.1).mpr
          intro n ev hn
          have := hR (n + 1) ev (by simpa using hn)
          rw [List.take_succ_cons, happ] at this
          exact this
      · intro hok
        rw [IH.2.1 hok]
        simp
      · intro e he
        obtain ⟨k, ev, h1, h2, h3, h4⟩ := IH.2.2 e he
        refine ⟨k + 1, ev, by simpa using h1, ?_, ?_, ?_⟩
        · rw [h2, List.take_succ_cons]
          simp
        · intro j ev' hj hjev
          cases j with
          | zero =>
            simp only [List.getElem?_cons_zero] at hjev
            injection hjev with hjev
            subst hjev
            rw [List.take_zero, List.append_nil]
            exact hs
          | succ m =>
            have hm : m < k := by omega
            have hmev : rest[m]? = some ev' := by simpa using hjev
            have := h3 m ev' hm hmev
            rw [List.take_succ_cons, happ]
            exact this
        · rw [List.take_succ_cons, happ]
          exact h4

/-- C5: `serialize` returns `Ok` exactly when the collaborator accepts
every emitted call; otherwise it returns exactly the first failure the
collaborator reports, with all earlier calls accepted and no further
call issued after the failing one. -/
theorem C5_serialize_fail_fast (w : PostingsWriter) (ser : SegmentSerializer) :
    (((w.serialize ser).1 = Except.ok ()) ↔
      (∀ k ev, ((w.serialize alwaysOk).2)[k]? = some ev →
        ser (((w.serialize alwaysOk).2).take k) ev = none)) ∧
    ((w.serialize ser).1 = Except.ok () →
      (w.serialize ser).2 = (w.serialize alwaysOk).2) ∧
    (∀ e, (w.serialize ser).1 = Except.error e →
      ∃ k ev, ((w.serialize alwaysOk).2)[k]? = some ev ∧
        (w.serialize ser).2 = ((w.serialize alwaysOk).2).take k ++ [ev] ∧
        (∀ j ev', j < k → ((w.serialize alwaysOk).2)[j]? = some ev' →
          ser (((w.serialize alwaysOk).2).take j) ev' = none) ∧
        ser (((w.serialize alwaysOk).2).take k) ev = some e) := by
  have hfull : (w.serialize alwaysOk).2 = fullTrace w.postings w.term_index := by
    rw [PostingsWriter.serialize, serializeLoop_alwaysOk]
    simp
  have hrun : w.serialize ser = runEvents ser [] (fullTrace w.postings w.term_index) := by
    rw [PostingsWriter.serialize, serializeLoop_eq_runEvents]
  have H := runEvents_spec ser (fullTrace w.postings w.term_index) []
  simp only [List.nil_append] at H
  rw [hfull, hrun]
  exact H

/-- Witness for C5: a collaborator that rejects the second call makes
`serialize` stop right there with that error. -/
theorem C5_serialize_fail_fast_witness :
    ((buildWriter [(5, 7)]).serialize
        (fun tr _ => if tr.length = 1 then some 42 else none)).1 = Except.error 42 ∧
    ∃ k ev, (((buildWriter [(5, 7)]).serialize alwaysOk).2)[k]? = some ev ∧
      ((buildWriter [(5, 7)]).serialize
          (fun tr _ => if tr.length = 1 then some 42 else none)).2 =
        (((buildWriter [(5, 7)]).serialize alwaysOk).2).take k ++ [ev] ∧
      (∀ j ev', j < k → (((buildWriter [(5, 7)]).serialize alwaysOk).2)[j]? = some ev' →
        (fun (tr : List SerEvent) (_ : SerEvent) => if tr.length = 1 then some 42 else none)
          ((((buildWriter [(5, 7)]).serialize alwaysOk).2).take j) ev' = none) ∧
      (fun (tr : List SerEvent) (_ : SerEvent) => if tr.length = 1 then some 42 else none)
        ((((buildWriter [(5, 7)]).serialize alwaysOk).2).take k) ev = some 42 :=
  ⟨by rfl,
   (C5_serialize_fail_fast (buildWriter [(5, 7)])
      (fun tr _ => if tr.length = 1 then some 42 else none)).2.2 42 (by rfl)⟩
